import Mathlib

/-!
Verification of the `wyv` file-tree widget (`src/widgets/file_tree.rs`).

The Rust data model and the pure algorithms are embedded shallowly:

* `FileNode` mirrors `enum FileNode { Directory(String, Vec<FileNode>),
  File(String), Link(String, Box<Path>) }`; the `Box<Path>` link target is
  embedded as a `String`.
* Machine integers (`u16`, `u64`, `usize`) are embedded as `Nat`: all loop
  counters stay far below their overflow bounds in the claims considered.
* The filesystem is embedded as a pure snapshot `FsEntry`; `fs::canonicalize`
  and the `io::Error` results are embedded as `Except Unit` values.
-/

/-- The fixed path separator, `const NAME_SEP: &str = "/"` in the source. -/
def NAME_SEP : String := "/"

/-- Mirror of `enum FileNode` (file_tree.rs lines 97-102). -/
inductive FileNode where
  | Directory : String → List FileNode → FileNode
  | File : String → FileNode
  | Link : String → String → FileNode

/-- Mirror of `struct FileTreeState { expanded_nodes: HashSet<String> }`
(lines 15-18); the hash set is embedded as a list queried by `contains`. -/
structure FileTreeState where
  expanded_nodes : List String

/-- Mirror of `struct FileTree { file_root, root_node, state }` (lines 8-13). -/
structure FileTree where
  file_root : String
  root_node : FileNode
  state : FileTreeState

/-- Mirror of `FileNode::path` (lines 142-148): the full `name_path` field. -/
def FileNode.path : FileNode → String
  | .Directory full_name _ => full_name
  | .File full_name => full_name
  | .Link full_name _ => full_name

/-- Chars of a string after its last `'/'` (the whole string when it has
none): the value of `full_name.rsplit(NAME_SEP).next().unwrap_or(full_name)`
for the one-char separator. -/
def lastSegData (l : List Char) : List Char :=
  (l.reverse.takeWhile (fun c => c ≠ '/')).reverse

/-- Mirror of `FileNode::name` (lines 150-158): the last separator-delimited
segment of the `name_path`. -/
def FileNode.name (n : FileNode) : String :=
  ⟨lastSegData n.path.data⟩

/-- Mirror of `FileNode::has_children` (lines 160-165). -/
def FileNode.has_children : FileNode → Bool
  | .Directory _ _ => true
  | _ => false

/-- Mirror of `FileNode::depth` (lines 167-173):
`path.split(NAME_SEP).count()`. Splitting at a one-char separator yields
one more piece than there are separator occurrences. -/
def FileNode.depth (n : FileNode) : Nat :=
  n.path.data.count '/' + 1

/-- The children pushed for a node by `to_list_with_limit` (lines 44-51):
the `Directory` child vector, nothing for the other variants. -/
def FileNode.children : FileNode → List FileNode
  | .Directory _ c => c
  | _ => []

/-- Loop body of `FileTree::to_list_with_limit` (lines 37-58): cursor `i`
walks the accumulated vector `nodes`, appending the children of the node
under the cursor when it is a directory whose path is in the expanded set. -/
def toListAux (e : List String) (limit : Nat) (i : Nat) (nodes : List FileNode) :
    List FileNode :=
  if h : i < limit ∧ i < nodes.length then
    let next := nodes.get ⟨i, h.2⟩
    let nodes₂ :=
      if next.has_children && e.contains next.path then nodes ++ next.children
      else nodes
    toListAux e limit (i + 1) nodes₂
  else nodes
termination_by limit - i
decreasing_by simp_wf; omega

/-- The visible-row derivation for a given root and expanded set:
`to_list_with_limit` starts from the vector `[root]` with the cursor at 0. -/
def toList (root : FileNode) (e : List String) (limit : Nat) : List FileNode :=
  toListAux e limit 0 [root]

/-- Mirror of `FileTree::to_list_with_limit` (lines 37-58). -/
def FileTree.to_list_with_limit (t : FileTree) (limit : Nat) : List FileNode :=
  toList t.root_node t.state.expanded_nodes limit

/-- Mirror of `tui::layout::Rect` as used by `render`. -/
structure Rect where
  x : Nat
  y : Nat
  width : Nat
  height : Nat

/-- One write of `render` (line 90-91): `buf.content[idx].symbol.push_str("X")`.
Rust indexing panics out of bounds; the panic is embedded as `none`. -/
def writeCell (buf : List String) (idx : Nat) : Option (List String) :=
  if h : idx < buf.length then some (buf.set idx (buf.get ⟨idx, h⟩ ++ "X"))
  else none

/-- Inner column loop of `render` (lines 85-92): for `iw in 0..w`, skip while
`iw < indent`, break when `iw + indent > name.len()`, otherwise write to flat
index `(fx * fy) + start_idx` with `fx = x + iw`, `fy = y + i`,
`start_idx = i * w`. -/
def renderCols (x y w : Nat) (i indent nameLen : Nat) (iw : Nat)
    (buf : List String) : Option (List String) :=
  if iw < w then
    if iw < indent then renderCols x y w i indent nameLen (iw + 1) buf
    else if nameLen < iw + indent then some buf
    else
      match writeCell buf ((x + iw) * (y + i) + i * w) with
      | some buf₂ => renderCols x y w i indent nameLen (iw + 1) buf₂
      | none => none
  else some buf
termination_by w - iw
decreasing_by all_goals (simp_wf; omega)

/-- Outer row loop of `render` (lines 78-93): rows `i in 0..h`, stopping at
the end of the visible list. -/
def renderRows (x y w h : Nat) (list : List FileNode) (i : Nat)
    (buf : List String) : Option (List String) :=
  if i < h then
    match list.get? i with
    | none => some buf
    | some node =>
      match renderCols x y w i node.depth node.name.data.length 0 buf with
      | some buf₂ => renderRows x y w h list (i + 1) buf₂
      | none => none
  else some buf
termination_by h - i
decreasing_by simp_wf; omega

/-- Mirror of `<FileTree as StatefulWidget>::render` (lines 64-94): the
degenerate-area guard, then the row loop over `to_list_with_limit(h)`. The
`state` parameter mirrors the unused `state: &mut Self::State` argument. -/
def render (t : FileTree) (area : Rect) (buf : List String)
    (state : FileTreeState) : Option (List String) :=
  if area.width < 1 ∨ area.height < 1 then some buf
  else
    renderRows area.x area.y area.width area.height
      (t.to_list_with_limit area.height) 0 buf

/-- Flat-index accounting for the inner loop of `render`: the
`(row, column, flat index)` triples of the writes lines 85-92 perform, in
order. -/
def renderColAddrs (x y w : Nat) (i indent nameLen : Nat) (iw : Nat) :
    List (Nat × Nat × Nat) :=
  if iw < w then
    if iw < indent then renderColAddrs x y w i indent nameLen (iw + 1)
    else if nameLen < iw + indent then []
    else (i, iw, (x + iw) * (y + i) + i * w) ::
      renderColAddrs x y w i indent nameLen (iw + 1)
  else []
termination_by w - iw
decreasing_by all_goals (simp_wf; omega)

/-- Flat-index accounting for the whole of `render`: every
`(row, column, flat index)` triple written for the given tree and area. -/
def renderAddrs (t : FileTree) (area : Rect) : List (Nat × Nat × Nat) :=
  if area.width < 1 ∨ area.height < 1 then []
  else
    (List.range area.height).flatMap fun i =>
      match (t.to_list_with_limit area.height).get? i with
      | none => []
      | some node =>
        renderColAddrs area.x area.y area.width i node.depth
          node.name.data.length 0

/-- Comparison of one ordered field, as Rust's `Ord::cmp` produces it. -/
def cmpo {α : Type} [LinearOrder α] (a b : α) : Ordering :=
  if a < b then .lt else if b < a then .gt else .eq

/-- Discriminant order of the `FileNode` variants: `#[derive(PartialOrd, Ord)]`
on an enum orders by declaration order, `Directory < File < Link`. -/
def tagNum : FileNode → Nat
  | .Directory _ _ => 0
  | .File _ => 1
  | .Link _ _ => 2

mutual
/-- Mirror of the `Ord` instance `#[derive(..., Ord)]` on `FileNode`
(line 97): variants compare by discriminant first; equal variants compare
their fields lexicographically, vectors element by element then by length. -/
def cmpNode : FileNode → FileNode → Ordering
  | .Directory s v, .Directory s₂ v₂ => (cmpo s s₂).then (cmpList v v₂)
  | .File s, .File s₂ => cmpo s s₂
  | .Link s t, .Link s₂ t₂ => (cmpo s s₂).then (cmpo t t₂)
  | a, b => cmpo (tagNum a) (tagNum b)

def cmpList : List FileNode → List FileNode → Ordering
  | [], [] => .eq
  | [], _ :: _ => .lt
  | _ :: _, [] => .gt
  | a :: as, b :: bs => (cmpNode a b).then (cmpList as bs)
end

/-- The boolean order underlying `Vec::sort` for the derived `Ord`. -/
def nodeLe (a b : FileNode) : Bool :=
  match cmpNode a b with
  | .gt => false
  | _ => true

/-- Mirror of `nodes.sort()` (line 129): sort by the derived `Ord`. -/
def sortNodes (l : List FileNode) : List FileNode :=
  l.mergeSort nodeLe

/-- Pure snapshot of one filesystem entry, the input `FileNode::new_recursive`
walks. `name` is `path.file_name().and_then(|n| n.to_str())` (`none` for a
missing or non-text name); a `dir` with `entries = none` is one whose
`fs::read_dir` fails, a `link` with `target = none` one whose `fs::read_link`
fails; `other` is a path that is none of file/dir/symlink. -/
inductive FsEntry where
  | file (name : Option String)
  | dir (name : Option String) (entries : Option (List FsEntry))
  | link (name : Option String) (target : Option String)
  | other (name : Option String)

/-- The (possibly missing) base name of a snapshot entry. -/
def entryName : FsEntry → Option String
  | .file n => n
  | .dir n _ => n
  | .link n _ => n
  | .other n => n

mutual
/-- Mirror of `FileNode::new_recursive` (lines 110-140) over the snapshot:
reject a missing or non-text base name, build the `name_path` from the
parent's, then classify as file / dir / symlink in that order (anything else
is an error). A directory maps the recursive build over its entries, keeps
only the `Ok` results, and sorts them. -/
def FileNode.new_recursive : FsEntry → Option String → Except Unit FileNode
  | e, parent =>
    match entryName e with
    | none => .error ()
    | some n =>
      let path_name := match parent with
        | none => n
        | some p => p ++ NAME_SEP ++ n
      match e with
      | .file _ => .ok (.File path_name)
      | .dir _ none => .error ()
      | .dir _ (some es) =>
        .ok (.Directory path_name (sortNodes (buildList es path_name)))
      | .link _ none => .error ()
      | .link _ (some t) => .ok (.Link path_name t)
      | .other _ => .error ()
termination_by e _ => sizeOf e

def buildList : List FsEntry → String → List FileNode
  | [], _ => []
  | e :: es, p =>
    match FileNode.new_recursive e (some p) with
    | .ok c => c :: buildList es p
    | .error _ => buildList es p
termination_by es _ => sizeOf es
end

/-- Mirror of `FileNode::new_from_path` (lines 105-108). `fs::canonicalize`
is an effect; its outcome is embedded as the input `canon`: the snapshot at
the canonical path, or the canonicalization error. -/
def FileNode.new_from_path (canon : Except Unit FsEntry) : Except Unit FileNode :=
  match canon with
  | .error e => .error e
  | .ok fs => FileNode.new_recursive fs none

/-- Mirror of `FileTree::new` (lines 21-31): an `Ok` root node yields the
tree with the default (empty) expansion state, an `Err` is surfaced. -/
def FileTree.new (file_root : String) (canon : Except Unit FsEntry) :
    Except Unit FileTree :=
  match FileNode.new_from_path canon with
  | .ok root_node =>
    .ok { file_root := file_root, root_node := root_node,
          state := { expanded_nodes := [] } }
  | .error e => .error e

/-- A string free of the path separator, as every real base name is. -/
def NoSep (s : String) : Prop := '/' ∉ s.data

/-- A present name must be separator-free; a missing name is fine (the entry
is rejected by the build anyway). -/
def OkName : Option String → Prop
  | none => True
  | some s => NoSep s

mutual
/-- Well-formedness of a snapshot: every present base name is separator-free,
and the present names of the entries of each directory are distinct (as the
entries of one on-disk directory are). -/
def FsOk : FsEntry → Prop
  | .file n => OkName n
  | .dir n none => OkName n
  | .dir n (some es) =>
    OkName n ∧ FsOkList es ∧ (es.filterMap entryName).Nodup
  | .link n _ => OkName n
  | .other n => OkName n
termination_by e => sizeOf e

def FsOkList : List FsEntry → Prop
  | [] => True
  | e :: es => FsOk e ∧ FsOkList es
termination_by es => sizeOf es
end

mutual
/-- Two snapshots listing identical filesystem content, the directory
entries possibly enumerated in different orders (as `fs::read_dir` may). -/
inductive FsPerm : FsEntry → FsEntry → Prop
  | file (n) : FsPerm (.file n) (.file n)
  | dirNone (n) : FsPerm (.dir n none) (.dir n none)
  | dir (n) {es es₂ : List FsEntry} :
      FsPermList es es₂ → FsPerm (.dir n (some es)) (.dir n (some es₂))
  | link (n t) : FsPerm (.link n t) (.link n t)
  | other (n) : FsPerm (.other n) (.other n)

inductive FsPermList : List FsEntry → List FsEntry → Prop
  | nil : FsPermList [] []
  | cons {a b as bs} : FsPerm a b → FsPermList as bs →
      FsPermList (a :: as) (b :: bs)
  | swap {a a₂ b b₂} (l : List FsEntry) : FsPerm a a₂ → FsPerm b b₂ →
      FsPermList (a :: b :: l) (b₂ :: a₂ :: l)
  | trans {as bs cs} : FsPermList as bs → FsPermList bs cs → FsPermList as cs
end

mutual
/-- All nodes of a subtree, the subtree root first (preorder). -/
def allNodes : FileNode → List FileNode
  | .Directory p cs => .Directory p cs :: allNodesMany cs
  | n => [n]

def allNodesMany : List FileNode → List FileNode
  | [] => []
  | c :: cs => allNodes c ++ allNodesMany cs
end

/-- Every `name_path` of the tree is distinct. -/
def UniquePaths (root : FileNode) : Prop :=
  ((allNodes root).map FileNode.path).Nodup

mutual
/-- The nodes an unbounded expansion-respecting traversal can reach: the
root, and the children of every reached directory whose path is expanded. -/
def visList (e : List String) : FileNode → List FileNode
  | .Directory p cs =>
    .Directory p cs :: (if e.contains p then visListMany e cs else [])
  | n => [n]

def visListMany (e : List String) : List FileNode → List FileNode
  | [] => []
  | c :: cs => visList e c ++ visListMany e cs
end

mutual
/-- Node count of a subtree, used for strict-descendant size arguments. -/
def nsize : FileNode → Nat
  | .Directory _ cs => 1 + nsizeMany cs
  | _ => 1

def nsizeMany : List FileNode → Nat
  | [] => 0
  | c :: cs => nsize c + nsizeMany cs
end

/-- The second path lies in the subtree rooted at the first: it is the first
itself or extends it below the separator. -/
def SubPath (base s : String) : Prop :=
  s = base ∨ ∃ r, s = base ++ NAME_SEP ++ r

/-- Chars of a string before its first `'/'`. -/
def firstSegData (l : List Char) : List Char :=
  l.takeWhile (fun c => c ≠ '/')

/-- Modelled from the spec: the repository serializes `FileTreeState` with
`serde_json`, whose implementation is outside `src/`; the spec only requires
a stable, human-inspectable text format with round-trip equality. The model
writes each expanded path escaped (backslash before `'\'` and `','`) and
terminated by an unescaped `','`. -/
def escItem (s : List Char) : List Char :=
  s.flatMap fun c => if c = '\\' ∨ c = ',' then ['\\', c] else [c]

/-- Modelled from the spec: serialization of the expanded-path set. -/
def serializeState (st : FileTreeState) : String :=
  ⟨(st.expanded_nodes.map fun s => escItem s.data ++ [',']).flatten⟩

/-- Modelled from the spec: parser for `serializeState`'s format. `acc` holds
the chars of the item being read; a backslash takes the next char literally,
an unescaped `','` ends the item. -/
def parseItems : List Char → List Char → List String
  | [], _ => []
  | c :: rest, acc =>
    if c = '\\' then
      match rest with
      | [] => []
      | c₂ :: rest₂ => parseItems rest₂ (acc ++ [c₂])
    else if c = ',' then (⟨acc⟩ : String) :: parseItems rest []
    else parseItems rest (acc ++ [c])

/-- Modelled from the spec: deserialization of the expanded-path set. -/
def deserializeState (s : String) : FileTreeState :=
  { expanded_nodes := parseItems s.data [] }

/-- Same-variant field comparison of the derived `Ord`; its value on
mixed-variant pairs is irrelevant (the discriminant comparison decides). -/
def fieldsCmp : FileNode → FileNode → Ordering
  | .Directory s v, .Directory s₂ v₂ => (cmpo s s₂).then (cmpList v v₂)
  | .File s, .File s₂ => cmpo s s₂
  | .Link s t, .Link s₂ t₂ => (cmpo s s₂).then (cmpo t t₂)
  | _, _ => .eq

/-- Strict order on nodes of a built directory's child vector as the spec
states it: variant tag first, then `name_path` lexicographically. -/
def tagPathLt (a b : FileNode) : Prop :=
  tagNum a < tagNum b ∨ (tagNum a = tagNum b ∧ a.path < b.path)

/-- Snapshot of the spec's concrete scenario: a root directory named root
holding a file a.txt and a directory b that holds a file c.txt. -/
def c1fs : FsEntry :=
  .dir (some "root") (some
    [.file (some "a.txt"),
     .dir (some "b") (some [.file (some "c.txt")])])

/-- The node built for directory b of the concrete scenario. -/
def c1b : FileNode := .Directory "root/b" [.File "root/b/c.txt"]

/-- The node built for file a.txt of the concrete scenario. -/
def c1a : FileNode := .File "root/a.txt"

/-- The tree built from the concrete scenario's snapshot: children sorted
with the directory before the file (variant order of the derived Ord). -/
def c1root : FileNode := .Directory "root" [c1b, c1a]

/-- A tree holding only a root file named abc, with empty expansion state. -/
def ftAbc : FileTree :=
  { file_root := "abc", root_node := .File "abc",
    state := { expanded_nodes := [] } }

/-- A tree holding only a root file named root, with empty expansion state. -/
def ftRoot : FileTree :=
  { file_root := "root", root_node := .File "root",
    state := { expanded_nodes := [] } }

/-- A root directory r holding a directory r/b holding a file r/b/c. -/
def c4root : FileNode := .Directory "r" [.Directory "r/b" [.File "r/b/c"]]

/-- Snapshot of a directory with one good entry and one unclassifiable one. -/
def c8fs : FsEntry :=
  .dir (some "root") (some [.file (some "a.txt"), .other (some "bad")])

/-- The name_path the builder assigns below an optional parent path
(lines 116-119). -/
def mkPath (parent : Option String) (n : String) : String :=
  match parent with
  | none => n
  | some p => p ++ NAME_SEP ++ n

/-- Every directory of the subtree gives each child a name_path extending
its own by the separator and the child's base name, and a depth one larger. -/
def ChildOk (t : FileNode) : Prop :=
  ∀ p cs, FileNode.Directory p cs ∈ allNodes t → ∀ c ∈ cs,
    c.path = p ++ NAME_SEP ++ c.name ∧ NoSep c.name ∧
    c.depth = (FileNode.Directory p cs).depth + 1

/-- Every directory of the subtree has its child vector sorted by the
derived Ord. -/
def SortedAll (t : FileNode) : Prop :=
  ∀ p cs, FileNode.Directory p cs ∈ allNodes t →
    cs.Pairwise (fun a b => nodeLe a b = true)

/-- Every name_path of the subtree lies under the subtree root's path. -/
def SubPathAll (t : FileNode) : Prop :=
  ∀ x ∈ allNodes t, SubPath t.path x.path

/-! ### Facts about Ordering and one-field comparisons -/

theorem then_eq_eq (o₁ o₂ : Ordering) :
    o₁.then o₂ = .eq ↔ o₁ = .eq ∧ o₂ = .eq := by
  cases o₁ <;> cases o₂ <;> simp [Ordering.then]

theorem then_eq_lt (o₁ o₂ : Ordering) :
    o₁.then o₂ = .lt ↔ o₁ = .lt ∨ (o₁ = .eq ∧ o₂ = .lt) := by
  cases o₁ <;> cases o₂ <;> simp [Ordering.then]

theorem then_ne_gt (o₁ o₂ : Ordering) :
    o₁.then o₂ ≠ .gt ↔ o₁ = .lt ∨ (o₁ = .eq ∧ o₂ ≠ .gt) := by
  cases o₁ <;> cases o₂ <;> simp [Ordering.then]

theorem swap_then (o₁ o₂ : Ordering) :
    (o₁.then o₂).swap = o₁.swap.then o₂.swap := by
  cases o₁ <;> cases o₂ <;> simp [Ordering.then, Ordering.swap]

theorem cmpo_lt_iff {α : Type} [LinearOrder α] (a b : α) :
    cmpo a b = .lt ↔ a < b := by
  unfold cmpo; split_ifs with h₁ h₂ <;> simp [h₁]

theorem cmpo_gt_iff {α : Type} [LinearOrder α] (a b : α) :
    cmpo a b = .gt ↔ b < a := by
  unfold cmpo; split_ifs with h₁ h₂
  · simp [lt_asymm h₁]
  · simp [h₂]
  · simp [h₂]

theorem cmpo_eq_iff {α : Type} [LinearOrder α] (a b : α) :
    cmpo a b = .eq ↔ a = b := by
  unfold cmpo; split_ifs with h₁ h₂
  · simp [ne_of_lt h₁]
  · simp [ne_of_gt h₂]
  · simp [le_antisymm (le_of_not_lt h₂) (le_of_not_lt h₁)]

theorem cmpo_swap {α : Type} [LinearOrder α] (a b : α) :
    (cmpo a b).swap = cmpo b a := by
  rcases lt_trichotomy a b with h | h | h
  · simp [cmpo, h, lt_asymm h, Ordering.swap]
  · simp [cmpo, h, lt_irrefl, Ordering.swap]
  · simp [cmpo, h, lt_asymm h, Ordering.swap]

/-! ### The derived Ord on FileNode is a linear order -/

mutual
theorem cmpNode_eq_iff : (a b : FileNode) → (cmpNode a b = .eq ↔ a = b)
  | .Directory s v, .Directory s₂ v₂ => by
    have ih := cmpList_eq_iff v v₂
    simp [cmpNode, then_eq_eq, cmpo_eq_iff, ih]
  | .Directory s v, .File s₂ => by simp +decide [cmpNode, cmpo, tagNum]
  | .Directory s v, .Link s₂ t₂ => by simp +decide [cmpNode, cmpo, tagNum]
  | .File s, .Directory s₂ v₂ => by simp +decide [cmpNode, cmpo, tagNum]
  | .File s, .File s₂ => by simp [cmpNode, cmpo_eq_iff]
  | .File s, .Link s₂ t₂ => by simp +decide [cmpNode, cmpo, tagNum]
  | .Link s t, .Directory s₂ v₂ => by simp +decide [cmpNode, cmpo, tagNum]
  | .Link s t, .File s₂ => by simp +decide [cmpNode, cmpo, tagNum]
  | .Link s t, .Link s₂ t₂ => by
    simp [cmpNode, then_eq_eq, cmpo_eq_iff]

theorem cmpList_eq_iff : (as bs : List FileNode) → (cmpList as bs = .eq ↔ as = bs)
  | [], [] => by simp [cmpList]
  | [], b :: bs => by simp [cmpList]
  | a :: as, [] => by simp [cmpList]
  | a :: as, b :: bs => by
    have ih₁ := cmpNode_eq_iff a b
    have ih₂ := cmpList_eq_iff as bs
    simp [cmpList, then_eq_eq, ih₁, ih₂]
end

mutual
theorem cmpNode_swap : (a b : FileNode) → (cmpNode a b).swap = cmpNode b a
  | .Directory s v, .Directory s₂ v₂ => by
    have ih := cmpList_swap v v₂
    simp [cmpNode, swap_then, cmpo_swap, ih]
  | .Directory s v, .File s₂ => by simp +decide [cmpNode, cmpo, tagNum]
  | .Directory s v, .Link s₂ t₂ => by simp +decide [cmpNode, cmpo, tagNum]
  | .File s, .Directory s₂ v₂ => by simp +decide [cmpNode, cmpo, tagNum]
  | .File s, .File s₂ => by simp [cmpNode, cmpo_swap]
  | .File s, .Link s₂ t₂ => by simp +decide [cmpNode, cmpo, tagNum]
  | .Link s t, .Directory s₂ v₂ => by simp +decide [cmpNode, cmpo, tagNum]
  | .Link s t, .File s₂ => by simp +decide [cmpNode, cmpo, tagNum]
  | .Link s t, .Link s₂ t₂ => by simp [cmpNode, swap_then, cmpo_swap]

theorem cmpList_swap : (as bs : List FileNode) → (cmpList as bs).swap = cmpList bs as
  | [], [] => by simp [cmpList, Ordering.swap]
  | [], b :: bs => by simp [cmpList, Ordering.swap]
  | a :: as, [] => by simp [cmpList, Ordering.swap]
  | a :: as, b :: bs => by
    have ih₁ := cmpNode_swap a b
    have ih₂ := cmpList_swap as bs
    simp [cmpList, swap_then, ih₁, ih₂]
end

mutual
theorem cmpNode_lt_trans : (a b c : FileNode) → cmpNode a b = .lt →
    cmpNode b c = .lt → cmpNode a c = .lt
  | .Directory s v, .Directory s₂ v₂, .Directory s₃ v₃, h₁, h₂ => by
    simp only [cmpNode, then_eq_lt, cmpo_lt_iff, cmpo_eq_iff] at h₁ h₂ ⊢
    rcases h₁ with h₁ | ⟨rfl, h₁⟩ <;> rcases h₂ with h₂ | ⟨rfl, h₂⟩
    · exact Or.inl (lt_trans h₁ h₂)
    · exact Or.inl h₁
    · exact Or.inl h₂
    · exact Or.inr ⟨rfl, cmpList_lt_trans v v₂ v₃ h₁ h₂⟩
  | .File s, .File s₂, .File s₃, h₁, h₂ => by
    simp only [cmpNode, cmpo_lt_iff] at h₁ h₂ ⊢
    exact lt_trans h₁ h₂
  | .Link s t, .Link s₂ t₂, .Link s₃ t₃, h₁, h₂ => by
    simp only [cmpNode, then_eq_lt, cmpo_lt_iff, cmpo_eq_iff] at h₁ h₂ ⊢
    rcases h₁ with h₁ | ⟨rfl, h₁⟩ <;> rcases h₂ with h₂ | ⟨rfl, h₂⟩
    · exact Or.inl (lt_trans h₁ h₂)
    · exact Or.inl h₁
    · exact Or.inl h₂
    · exact Or.inr ⟨rfl, lt_trans h₁ h₂⟩
  | .Directory s v, .Directory s2 v2, .File s3, h₁, h₂ => by
    simp +decide [cmpNode, cmpo, tagNum] at h₁ h₂ ⊢
  | .Directory s v, .Directory s2 v2, .Link s3 t3, h₁, h₂ => by
    simp +decide [cmpNode, cmpo, tagNum] at h₁ h₂ ⊢
  | .Directory s v, .File s2, .Directory s3 v3, h₁, h₂ => by
    simp +decide [cmpNode, cmpo, tagNum] at h₁ h₂ ⊢
  | .Directory s v, .File s2, .File s3, h₁, h₂ => by
    simp +decide [cmpNode, cmpo, tagNum] at h₁ h₂ ⊢
  | .Directory s v, .File s2, .Link s3 t3, h₁, h₂ => by
    simp +decide [cmpNode, cmpo, tagNum] at h₁ h₂ ⊢
  | .Directory s v, .Link s2 t2, .Directory s3 v3, h₁, h₂ => by
    simp +decide [cmpNode, cmpo, tagNum] at h₁ h₂ ⊢
  | .Directory s v, .Link s2 t2, .File s3, h₁, h₂ => by
    simp +decide [cmpNode, cmpo, tagNum] at h₁ h₂ ⊢
  | .Directory s v, .Link s2 t2, .Link s3 t3, h₁, h₂ => by
    simp +decide [cmpNode, cmpo, tagNum] at h₁ h₂ ⊢
  | .File s, .Directory s2 v2, .Directory s3 v3, h₁, h₂ => by
    simp +decide [cmpNode, cmpo, tagNum] at h₁ h₂ ⊢
  | .File s, .Directory s2 v2, .File s3, h₁, h₂ => by
    simp +decide [cmpNode, cmpo, tagNum] at h₁ h₂ ⊢
  | .File s, .Directory s2 v2, .Link s3 t3, h₁, h₂ => by
    simp +decide [cmpNode, cmpo, tagNum] at h₁ h₂ ⊢
  | .File s, .File s2, .Directory s3 v3, h₁, h₂ => by
    simp +decide [cmpNode, cmpo, tagNum] at h₁ h₂ ⊢
  | .File s, .File s2, .Link s3 t3, h₁, h₂ => by
    simp +decide [cmpNode, cmpo, tagNum] at h₁ h₂ ⊢
  | .File s, .Link s2 t2, .Directory s3 v3, h₁, h₂ => by
    simp +decide [cmpNode, cmpo, tagNum] at h₁ h₂ ⊢
  | .File s, .Link s2 t2, .File s3, h₁, h₂ => by
    simp +decide [cmpNode, cmpo, tagNum] at h₁ h₂ ⊢
  | .File s, .Link s2 t2, .Link s3 t3, h₁, h₂ => by
    simp +decide [cmpNode, cmpo, tagNum] at h₁ h₂ ⊢
  | .Link s t, .Directory s2 v2, .Directory s3 v3, h₁, h₂ => by
    simp +decide [cmpNode, cmpo, tagNum] at h₁ h₂ ⊢
  | .Link s t, .Directory s2 v2, .File s3, h₁, h₂ => by
    simp +decide [cmpNode, cmpo, tagNum] at h₁ h₂ ⊢
  | .Link s t, .Directory s2 v2, .Link s3 t3, h₁, h₂ => by
    simp +decide [cmpNode, cmpo, tagNum] at h₁ h₂ ⊢
  | .Link s t, .File s2, .Directory s3 v3, h₁, h₂ => by
    simp +decide [cmpNode, cmpo, tagNum] at h₁ h₂ ⊢
  | .Link s t, .File s2, .File s3, h₁, h₂ => by
    simp +decide [cmpNode, cmpo, tagNum] at h₁ h₂ ⊢
  | .Link s t, .File s2, .Link s3 t3, h₁, h₂ => by
    simp +decide [cmpNode, cmpo, tagNum] at h₁ h₂ ⊢
  | .Link s t, .Link s2 t2, .Directory s3 v3, h₁, h₂ => by
    simp +decide [cmpNode, cmpo, tagNum] at h₁ h₂ ⊢
  | .Link s t, .Link s2 t2, .File s3, h₁, h₂ => by
    simp +decide [cmpNode, cmpo, tagNum] at h₁ h₂ ⊢

theorem cmpList_lt_trans : (as bs cs : List FileNode) → cmpList as bs = .lt →
    cmpList bs cs = .lt → cmpList as cs = .lt
  | [], [], _ :: _, _, _ => by simp [cmpList]
  | [], _ :: _, _ :: _, _, _ => by simp [cmpList]
  | [], _ :: _, [], _, h₂ => by simp [cmpList] at h₂
  | [], [], [], h₁, _ => by simp [cmpList] at h₁
  | _ :: _, [], _, h₁, _ => by simp [cmpList] at h₁
  | _ :: _, _ :: _, [], _, h₂ => by simp [cmpList] at h₂
  | a :: as, b :: bs, c :: cs, h₁, h₂ => by
    simp only [cmpList, then_eq_lt] at h₁ h₂ ⊢
    rcases h₁ with h₁ | ⟨he₁, h₁⟩
    · rcases h₂ with h₂ | ⟨he₂, h₂⟩
      · exact Or.inl (cmpNode_lt_trans a b c h₁ h₂)
      · rw [cmpNode_eq_iff] at he₂
        subst he₂
        exact Or.inl h₁
    · rw [cmpNode_eq_iff] at he₁
      subst he₁
      rcases h₂ with h₂ | ⟨he₂, h₂⟩
      · exact Or.inl h₂
      · rw [cmpNode_eq_iff] at he₂
        subst he₂
        exact Or.inr ⟨(cmpNode_eq_iff a a).mpr rfl, cmpList_lt_trans as bs cs h₁ h₂⟩
end

theorem nodeLe_total (a b : FileNode) : nodeLe a b || nodeLe b a := by
  unfold nodeLe
  rw [← cmpNode_swap a b]
  cases cmpNode a b <;> simp [Ordering.swap]

theorem nodeLe_trans (a b c : FileNode) :
    nodeLe a b → nodeLe b c → nodeLe a c := by
  unfold nodeLe
  rcases h₁ : cmpNode a b with _ | _ | _ <;>
    rcases h₂ : cmpNode b c with _ | _ | _ <;> simp
  · have := cmpNode_lt_trans a b c h₁ h₂
    simp [this]
  · rw [cmpNode_eq_iff] at h₂; subst h₂; simp [h₁]
  · rw [cmpNode_eq_iff] at h₁; subst h₁; simp [h₂]
  · rw [cmpNode_eq_iff] at h₁; subst h₁; simp [h₂]

theorem nodeLe_antisymm (a b : FileNode) :
    nodeLe a b = true → nodeLe b a = true → a = b := by
  unfold nodeLe
  rw [← cmpNode_swap a b]
  rcases h : cmpNode a b with _ | _ | _ <;> simp [Ordering.swap]
  rw [cmpNode_eq_iff] at h
  exact h

theorem sortNodes_perm (l : List FileNode) : List.Perm (sortNodes l) l :=
  List.mergeSort_perm l nodeLe

theorem sortNodes_sorted (l : List FileNode) :
    (sortNodes l).Pairwise (fun a b => nodeLe a b = true) := by
  have h := @List.sorted_mergeSort FileNode nodeLe
    (fun a b c h₁ h₂ => nodeLe_trans a b c h₁ h₂)
    (fun a b => nodeLe_total a b) l
  exact h

theorem sortNodes_eq_of_sorted (l m : List FileNode) (hp : List.Perm l m)
    (hs : m.Pairwise (fun a b => nodeLe a b = true)) : sortNodes l = m := by
  haveI : IsAntisymm FileNode (fun a b => nodeLe a b = true) :=
    ⟨fun a b h₁ h₂ => nodeLe_antisymm a b h₁ h₂⟩
  exact List.eq_of_perm_of_sorted ((sortNodes_perm l).trans hp)
    (sortNodes_sorted l) hs

theorem sortNodes_congr (l m : List FileNode) (hp : List.Perm l m) :
    sortNodes l = sortNodes m :=
  sortNodes_eq_of_sorted l (sortNodes m)
    (hp.trans (sortNodes_perm m).symm) (sortNodes_sorted m)

/-! ### Structure of the bounded traversal -/

theorem toListAux_step (e : List String) (limit i : Nat) (nodes : List FileNode)
    (h : i < limit ∧ i < nodes.length) :
    toListAux e limit i nodes = toListAux e limit (i + 1)
      (if (nodes.get ⟨i, h.2⟩).has_children && e.contains (nodes.get ⟨i, h.2⟩).path
       then nodes ++ (nodes.get ⟨i, h.2⟩).children else nodes) := by
  rw [toListAux, dif_pos h]

theorem toListAux_stop (e : List String) (limit i : Nat) (nodes : List FileNode)
    (h : ¬(i < limit ∧ i < nodes.length)) :
    toListAux e limit i nodes = nodes := by
  rw [toListAux, dif_neg h]

theorem toListAux_eq_append (e : List String) (limit i : Nat)
    (nodes : List FileNode) : ∃ r, toListAux e limit i nodes = nodes ++ r := by
  by_cases h : i < limit ∧ i < nodes.length
  · rw [toListAux_step e limit i nodes h]
    by_cases hc : ((nodes.get ⟨i, h.2⟩).has_children &&
        e.contains (nodes.get ⟨i, h.2⟩).path) = true
    · rw [if_pos hc]
      obtain ⟨r, hr⟩ :=
        toListAux_eq_append e limit (i + 1) (nodes ++ (nodes.get ⟨i, h.2⟩).children)
      exact ⟨(nodes.get ⟨i, h.2⟩).children ++ r, by rw [hr, List.append_assoc]⟩
    · rw [if_neg hc]
      exact toListAux_eq_append e limit (i + 1) nodes
  · exact ⟨[], by rw [toListAux_stop e limit i nodes h]; simp⟩
termination_by limit - i
decreasing_by all_goals (simp_wf; omega)

theorem toList_head (root : FileNode) (e : List String) (limit : Nat) :
    ∃ r, toList root e limit = root :: r := by
  obtain ⟨r, hr⟩ := toListAux_eq_append e limit 0 [root]
  exact ⟨r, by rw [toList, hr]; simp⟩

theorem toList_zero (root : FileNode) (e : List String) :
    toList root e 0 = [root] := by
  rw [toList, toListAux]
  simp

/-! ### C10, C9, C5 -/

/-- C10: for every tree, expansion state and limit, the visible-row
derivation starts with the root node and is never empty; in particular with
limit 0 it still returns the one-element list holding the root, so the
output length (1) exceeds the limit (0). -/
theorem c10_root_always_first (root : FileNode) (e : List String) (limit : Nat) :
    (toList root e limit).head? = some root ∧
    1 ≤ (toList root e limit).length ∧
    toList root e 0 = [root] := by
  obtain ⟨r, hr⟩ := toList_head root e limit
  exact ⟨by rw [hr]; rfl, by rw [hr]; simp, toList_zero root e⟩

/-- C9: the render entry point ignores the explicit state argument passed as
the StatefulWidget state parameter; the rows come only from the FileTree's
internally owned expansion state, so any two states give identical output. -/
theorem c9_render_ignores_state_arg (t : FileTree) (area : Rect)
    (buf : List String) (s₁ s₂ : FileTreeState) :
    render t area buf s₁ = render t area buf s₂ := rfl

theorem string_mk_data (s : String) : (⟨s.data⟩ : String) = s := by
  cases s; rfl

theorem parseItems_esc (c : Char) (rest acc : List Char) :
    parseItems ('\\' :: c :: rest) acc = parseItems rest (acc ++ [c]) := by
  rw [parseItems.eq_def]
  simp

theorem parseItems_comma (rest acc : List Char) :
    parseItems (',' :: rest) acc = (⟨acc⟩ : String) :: parseItems rest [] := by
  rw [parseItems.eq_def]
  simp +decide

theorem parseItems_plain (c : Char) (rest acc : List Char) (h₁ : c ≠ '\\')
    (h₂ : c ≠ ',') :
    parseItems (c :: rest) acc = parseItems rest (acc ++ [c]) := by
  rw [parseItems.eq_def]
  simp [h₁, h₂]

theorem parseItems_escItem (s rest acc : List Char) :
    parseItems (escItem s ++ ',' :: rest) acc =
      (⟨acc ++ s⟩ : String) :: parseItems rest [] := by
  induction s generalizing acc with
  | nil =>
    show parseItems (',' :: rest) acc = _
    rw [parseItems_comma]
    simp
  | cons c s ih =>
    by_cases hc : c = '\\' ∨ c = ','
    · have he : escItem (c :: s) = '\\' :: c :: escItem s := by
        simp [escItem, hc]
      rw [he]
      show parseItems ('\\' :: (c :: (escItem s ++ ',' :: rest))) acc = _
      rw [parseItems_esc, ih (acc ++ [c])]
      simp
    · push_neg at hc
      have he : escItem (c :: s) = c :: escItem s := by
        simp [escItem, hc.1, hc.2]
      rw [he]
      show parseItems (c :: (escItem s ++ ',' :: rest)) acc = _
      rw [parseItems_plain c _ acc hc.1 hc.2, ih (acc ++ [c])]
      simp

/-- C5: deserializing the serialization of any expansion state returns an
equal state (round-trip identity for the set of expanded paths). -/
theorem c5_state_roundtrip (st : FileTreeState) :
    deserializeState (serializeState st) = st := by
  obtain ⟨l⟩ := st
  show deserializeState (serializeState ⟨l⟩) = _
  rw [deserializeState]
  have : ∀ acc : List Char, acc = [] →
      parseItems (serializeState ⟨l⟩).data acc = l := by
    induction l with
    | nil => intro acc h; subst h; simp [serializeState, parseItems]
    | cons x l ih =>
      intro acc h
      subst h
      have hdata : (serializeState ⟨x :: l⟩).data =
          escItem x.data ++ ',' :: (serializeState ⟨l⟩).data := by
        simp [serializeState]
      rw [hdata, parseItems_escItem]
      rw [ih [] rfl]
      simp [string_mk_data]
  rw [this [] rfl]

/-! ### C1: the concrete scenario -/

theorem c1_build : FileNode.new_recursive c1fs none = .ok c1root := by
  have s₁ : "root/b" ++ "/" ++ "c.txt" = "root/b/c.txt" := by decide
  have s₂ : "root" ++ "/" ++ "a.txt" = "root/a.txt" := by decide
  have s₃ : "root" ++ "/" ++ "b" = "root/b" := by decide
  have hc : FileNode.new_recursive (.file (some "c.txt")) (some "root/b") =
      .ok (.File "root/b/c.txt") := by
    rw [FileNode.new_recursive.eq_def]
    simp [entryName, NAME_SEP, s₁]
  have hblc : buildList [.file (some "c.txt")] "root/b" = [.File "root/b/c.txt"] := by
    simp [buildList, hc]
  have hsc : sortNodes [FileNode.File "root/b/c.txt"] = [.File "root/b/c.txt"] := by
    simp [sortNodes]
  have hb : FileNode.new_recursive (.dir (some "b") (some [.file (some "c.txt")]))
      (some "root") = .ok c1b := by
    rw [FileNode.new_recursive.eq_def]
    simp [entryName, NAME_SEP, s₃, hblc, hsc, c1b]
  have ha : FileNode.new_recursive (.file (some "a.txt")) (some "root") =
      .ok c1a := by
    rw [FileNode.new_recursive.eq_def]
    simp [entryName, NAME_SEP, s₂, c1a]
  have hbl : buildList [.file (some "a.txt"),
      .dir (some "b") (some [.file (some "c.txt")])] "root" = [c1a, c1b] := by
    simp [buildList, ha, hb]
  have hsort : sortNodes [c1a, c1b] = [c1b, c1a] := by
    apply sortNodes_eq_of_sorted
    · exact List.Perm.swap c1b c1a []
    · simp +decide [List.pairwise_cons, nodeLe, cmpNode, cmpo, tagNum, c1a, c1b]
  rw [c1fs, FileNode.new_recursive.eq_def]
  simp [entryName, NAME_SEP, hbl, hsort, c1root]

theorem c1_toList_empty : toList c1root [] 10 = [c1root] := by
  have t₀ : toListAux [] 10 0 [c1root] = toListAux [] 10 1 [c1root] := by
    rw [toListAux_step [] 10 0 [c1root] (by simp)]
    simp [c1root, FileNode.has_children, FileNode.path, FileNode.children]
  rw [toList, t₀, toListAux_stop _ _ _ _ (by simp)]

theorem c1_toList_b : toList c1root ["root/b"] 10 = [c1root] := by
  have t₀ : toListAux ["root/b"] 10 0 [c1root] = toListAux ["root/b"] 10 1 [c1root] := by
    rw [toListAux_step ["root/b"] 10 0 [c1root] (by simp)]
    simp +decide [c1root, FileNode.has_children, FileNode.path, FileNode.children]
  rw [toList, t₀, toListAux_stop _ _ _ _ (by simp)]

theorem c1_toList_r : toList c1root ["root"] 10 = [c1root, c1b, c1a] := by
  have t₀ : toListAux ["root"] 10 0 [c1root] =
      toListAux ["root"] 10 1 [c1root, c1b, c1a] := by
    rw [toListAux_step ["root"] 10 0 [c1root] (by simp)]
    simp +decide [c1root, c1b, c1a, FileNode.has_children, FileNode.path,
      FileNode.children]
  have t₁ : toListAux ["root"] 10 1 [c1root, c1b, c1a] =
      toListAux ["root"] 10 2 [c1root, c1b, c1a] := by
    rw [toListAux_step ["root"] 10 1 [c1root, c1b, c1a] (by simp)]
    simp +decide [c1root, c1b, c1a, FileNode.has_children, FileNode.path,
      FileNode.children]
  have t₂ : toListAux ["root"] 10 2 [c1root, c1b, c1a] =
      toListAux ["root"] 10 3 [c1root, c1b, c1a] := by
    rw [toListAux_step ["root"] 10 2 [c1root, c1b, c1a] (by simp)]
    simp +decide [c1root, c1b, c1a, FileNode.has_children, FileNode.path,
      FileNode.children]
  rw [toList, t₀, t₁, t₂, toListAux_stop _ _ _ _ (by simp)]

theorem c1_toList_rb : toList c1root ["root", "root/b"] 10 =
    [c1root, c1b, c1a, .File "root/b/c.txt"] := by
  have t₀ : toListAux ["root", "root/b"] 10 0 [c1root] =
      toListAux ["root", "root/b"] 10 1 [c1root, c1b, c1a] := by
    rw [toListAux_step ["root", "root/b"] 10 0 [c1root] (by simp)]
    simp +decide [c1root, c1b, c1a, FileNode.has_children, FileNode.path,
      FileNode.children]
  have t₁ : toListAux ["root", "root/b"] 10 1 [c1root, c1b, c1a] =
      toListAux ["root", "root/b"] 10 2 [c1root, c1b, c1a, .File "root/b/c.txt"] := by
    rw [toListAux_step ["root", "root/b"] 10 1 [c1root, c1b, c1a] (by simp)]
    simp +decide [c1root, c1b, c1a, FileNode.has_children, FileNode.path,
      FileNode.children]
  have t₂ : toListAux ["root", "root/b"] 10 2 [c1root, c1b, c1a, .File "root/b/c.txt"] =
      toListAux ["root", "root/b"] 10 3 [c1root, c1b, c1a, .File "root/b/c.txt"] := by
    rw [toListAux_step ["root", "root/b"] 10 2 _ (by simp)]
    simp +decide [c1root, c1b, c1a, FileNode.has_children, FileNode.path,
      FileNode.children]
  have t₃ : toListAux ["root", "root/b"] 10 3 [c1root, c1b, c1a, .File "root/b/c.txt"] =
      toListAux ["root", "root/b"] 10 4 [c1root, c1b, c1a, .File "root/b/c.txt"] := by
    rw [toListAux_step ["root", "root/b"] 10 3 _ (by simp)]
    simp +decide [c1root, c1b, c1a, FileNode.has_children, FileNode.path,
      FileNode.children]
  rw [toList, t₀, t₁, t₂, t₃, toListAux_stop _ _ _ _ (by simp)]

/-- C1 counterexample: in the tree built from the scenario snapshot, with the
EMPTY expansion state the derivation returns only the root (the root's own
path is not in the expanded set, so even its children are hidden), not the
claimed three-row list; likewise expanding only root/b does not produce the
claimed four-row list. -/
theorem c1_counterexample :
    FileNode.new_recursive c1fs none = .ok c1root ∧
    toList c1root [] 10 ≠ [c1root, c1a, c1b] ∧
    toList c1root ["root/b"] 10 ≠ [c1root, c1a, c1b, .File "root/b/c.txt"] := by
  refine ⟨c1_build, ?_, ?_⟩
  · rw [c1_toList_empty]; simp
  · rw [c1_toList_b]; simp

/-- C1 amended: in the tree built from the scenario snapshot, expanding the
root path gives exactly [root, root/b, root/a.txt] (the directory sorts
before the file), with root/b/c.txt absent; expanding both the root and
root/b gives exactly [root, root/b, root/a.txt, root/b/c.txt]. -/
theorem c1_amended :
    FileNode.new_recursive c1fs none = .ok c1root ∧
    toList c1root ["root"] 10 = [c1root, c1b, c1a] ∧
    FileNode.File "root/b/c.txt" ∉ toList c1root ["root"] 10 ∧
    toList c1root ["root", "root/b"] 10 =
      [c1root, c1b, c1a, .File "root/b/c.txt"] := by
  refine ⟨c1_build, c1_toList_r, ?_, c1_toList_rb⟩
  rw [c1_toList_r]
  simp +decide [c1root, c1b, c1a]

/-! ### C2, C3: the render addressing and truncation defects -/

theorem ftAbc_rows : FileTree.to_list_with_limit ftAbc 1 = [.File "abc"] := by
  have t₀ : toListAux [] 1 0 [FileNode.File "abc"] =
      toListAux [] 1 1 [FileNode.File "abc"] := by
    rw [toListAux_step [] 1 0 [FileNode.File "abc"] (by simp)]
    simp [FileNode.has_children]
  rw [FileTree.to_list_with_limit]
  show toList (FileNode.File "abc") [] 1 = _
  rw [toList, t₀, toListAux_stop _ _ _ _ (by simp)]

theorem ftRoot_rows : FileTree.to_list_with_limit ftRoot 1 = [.File "root"] := by
  have t₀ : toListAux [] 1 0 [FileNode.File "root"] =
      toListAux [] 1 1 [FileNode.File "root"] := by
    rw [toListAux_step [] 1 0 [FileNode.File "root"] (by simp)]
    simp [FileNode.has_children]
  rw [FileTree.to_list_with_limit]
  show toList (FileNode.File "root") [] 1 = _
  rw [toList, t₀, toListAux_stop _ _ _ _ (by simp)]

/-- C2 as stated fails on the code: the flat index is computed as
fx * fy + i * w, a product of coordinates. On a one-row area at the origin
the whole first row collapses to flat index 0: columns 1 and 2 are distinct
cells yet receive the same index, and on an offset area the index (6) leaves
a 3-cell buffer entirely, so render faults. The spec itself (sections 4.3
and 9) calls this addressing a defect to be replaced by row-major
`row * stride + column`, so the code, not the claim, is wrong. -/
theorem c2_addressing_code_bug :
    renderAddrs ftAbc ⟨0, 0, 4, 1⟩ = [(0, 1, 0), (0, 2, 0)] ∧
    render ftAbc ⟨5, 1, 3, 1⟩ ["", "", ""] { expanded_nodes := [] } = none := by
  have hd : (FileNode.File "abc").depth = 1 := rfl
  have hn : (FileNode.File "abc").name.data.length = 3 := rfl
  have hA : renderColAddrs 0 0 4 0 1 3 0 = [(0, 1, 0), (0, 2, 0)] := by
    simp [renderColAddrs]
  have hC : renderCols 5 1 3 0 1 3 0 ["", "", ""] = none := by
    simp [renderCols, writeCell]
  have hn₂ : (FileNode.File "abc").name.length = 3 := rfl
  constructor
  · rw [renderAddrs]
    rw [show List.range 1 = [0] by decide]
    simp only [List.flatMap_cons, List.flatMap_nil, ftAbc_rows]
    norm_num [hd, hn, hn₂, hA]
  · rw [render]
    norm_num
    rw [renderRows]
    simp only [ftAbc_rows]
    norm_num [hd, hn, hC]

/-- C3 as stated fails on the code, twice over. For the one-row tree whose
root file is named root (base name length 4) on a width-10 area the claim
demands the four characters of the base name at columns 1..4; the code
instead stops once iw + indent exceeds the name length — the written columns
are exactly [1, 2, 3], one short of min(len, width - indent) = 4 — and each
write appends the literal "X", not a character of the base name (the buffer
cell ends up "XXX" via the collapsed index 0 of the C2 defect). The spec
(sections 4.3 and 8.7) clearly intends base-name characters with
min(len, width - indent) columns, so the code is the defective side. -/
theorem c3_name_truncation_code_bug :
    render ftRoot ⟨0, 0, 10, 1⟩ ["", "", "", "", "", "", "", "", "", ""]
      { expanded_nodes := [] } =
      some ["XXX", "", "", "", "", "", "", "", "", ""] ∧
    (renderAddrs ftRoot ⟨0, 0, 10, 1⟩).map (fun p => p.2.1) = [1, 2, 3] ∧
    (FileNode.File "root").name = "root" ∧
    min (FileNode.File "root").name.length (10 - (FileNode.File "root").depth)
      = 4 := by
  have hd : (FileNode.File "root").depth = 1 := rfl
  have hn : (FileNode.File "root").name.data.length = 4 := rfl
  have hn₂ : (FileNode.File "root").name.length = 4 := rfl
  have hC : renderCols 0 0 10 0 1 4 0 ["", "", "", "", "", "", "", "", "", ""]
      = some ["XXX", "", "", "", "", "", "", "", "", ""] := by
    simp [renderCols, writeCell]
  have hA : renderColAddrs 0 0 10 0 1 4 0 = [(0, 1, 0), (0, 2, 0), (0, 3, 0)] := by
    simp [renderColAddrs]
  refine ⟨?_, ?_, rfl, by rw [hn₂, hd]; decide⟩
  · rw [render]
    norm_num
    rw [renderRows]
    simp only [ftRoot_rows]
    norm_num [hd, hn, hn₂, hC]
    rw [renderRows]
    norm_num
  · rw [renderAddrs]
    rw [show List.range 1 = [0] by decide]
    simp only [List.flatMap_cons, List.flatMap_nil, ftRoot_rows]
    norm_num [hd, hn, hn₂, hA]

/-! ### C4: collapse containment -/

theorem allNodes_dir (p : String) (cs : List FileNode) :
    allNodes (.Directory p cs) = .Directory p cs :: allNodesMany cs := by
  simp [allNodes]

theorem allNodes_file (s : String) : allNodes (.File s) = [.File s] := by
  simp [allNodes]

theorem allNodes_link (s t : String) : allNodes (.Link s t) = [.Link s t] := by
  simp [allNodes]

theorem visList_dir (e : List String) (p : String) (cs : List FileNode) :
    visList e (.Directory p cs) =
      .Directory p cs :: (if e.contains p then visListMany e cs else []) := by
  simp [visList]

theorem visList_file (e : List String) (s : String) :
    visList e (.File s) = [.File s] := by
  simp [visList]

theorem visList_link (e : List String) (s t : String) :
    visList e (.Link s t) = [.Link s t] := by
  simp [visList]

theorem mem_allNodesMany (x : FileNode) (cs : List FileNode) :
    x ∈ allNodesMany cs ↔ ∃ c ∈ cs, x ∈ allNodes c := by
  induction cs with
  | nil => simp [allNodesMany]
  | cons c cs ih => simp [allNodesMany, ih]

theorem self_mem_allNodes (t : FileNode) : t ∈ allNodes t := by
  cases t <;> simp [allNodes]

theorem mem_visListMany (e : List String) (x : FileNode) (cs : List FileNode) :
    x ∈ visListMany e cs ↔ ∃ c ∈ cs, x ∈ visList e c := by
  induction cs with
  | nil => simp [visListMany]
  | cons c cs ih => simp [visListMany, ih]

theorem self_mem_visList (e : List String) (t : FileNode) : t ∈ visList e t := by
  cases t <;> simp [visList]

mutual
theorem mem_allNodes_trans : (t : FileNode) → ∀ a b : FileNode,
    a ∈ allNodes b → b ∈ allNodes t → a ∈ allNodes t
  | .Directory p cs, a, b, hab, hbt => by
    rw [allNodes_dir] at hbt ⊢
    rcases List.mem_cons.mp hbt with h | h
    · subst h
      rw [allNodes_dir] at hab
      exact hab
    · exact List.mem_cons_of_mem _ (mem_allNodesMany_trans cs a b hab h)
  | .File s, a, b, hab, hbt => by
    rw [allNodes_file] at hbt
    simp at hbt
    subst hbt
    exact hab
  | .Link s t, a, b, hab, hbt => by
    rw [allNodes_link] at hbt
    simp at hbt
    subst hbt
    exact hab

theorem mem_allNodesMany_trans : (cs : List FileNode) → ∀ a b : FileNode,
    a ∈ allNodes b → b ∈ allNodesMany cs → a ∈ allNodesMany cs
  | c :: cs, a, b, hab, hb => by
    rw [allNodesMany] at hb ⊢
    rcases List.mem_append.mp hb with h | h
    · exact List.mem_append_left _ (mem_allNodes_trans c a b hab h)
    · exact List.mem_append_right _ (mem_allNodesMany_trans cs a b hab h)
end

mutual
theorem visList_subset_allNodes : (t : FileNode) → ∀ (e : List String)
    (x : FileNode), x ∈ visList e t → x ∈ allNodes t
  | .Directory p cs, e, x, hx => by
    rw [visList_dir] at hx
    rw [allNodes_dir]
    rcases List.mem_cons.mp hx with h | h
    · exact List.mem_cons.mpr (Or.inl h)
    · by_cases hc : e.contains p = true
      · rw [if_pos hc] at h
        exact List.mem_cons_of_mem _ (visListMany_subset_allNodesMany cs e x h)
      · rw [if_neg hc] at h
        simp at h
  | .File s, e, x, hx => by rw [visList_file] at hx; rw [allNodes_file]; exact hx
  | .Link s t, e, x, hx => by
    rw [visList_link] at hx; rw [allNodes_link]; exact hx

theorem visListMany_subset_allNodesMany : (cs : List FileNode) →
    ∀ (e : List String) (x : FileNode),
    x ∈ visListMany e cs → x ∈ allNodesMany cs
  | c :: cs, e, x, hx => by
    rw [visListMany] at hx
    rw [allNodesMany]
    rcases List.mem_append.mp hx with h | h
    · exact List.mem_append_left _ (visList_subset_allNodes c e x h)
    · exact List.mem_append_right _ (visListMany_subset_allNodesMany cs e x h)
end

mutual
theorem visList_closed : (t : FileNode) → ∀ (e : List String) (p : String)
    (cs : List FileNode) (c : FileNode),
    FileNode.Directory p cs ∈ visList e t → e.contains p = true → c ∈ cs →
    c ∈ visList e t
  | .Directory q ds, e, p, cs, c, hmem, hcp, hc => by
    rw [visList_dir] at hmem ⊢
    rcases List.mem_cons.mp hmem with h | h
    · have hq : q = p ∧ ds = cs := by
        cases h
        exact ⟨rfl, rfl⟩
      obtain ⟨rfl, rfl⟩ := hq
      rw [if_pos hcp]
      refine List.mem_cons_of_mem _ ?_
      exact (mem_visListMany e c ds).mpr ⟨c, hc, self_mem_visList e c⟩
    · by_cases hcq : e.contains q = true
      · rw [if_pos hcq] at h ⊢
        obtain ⟨d, hd, hxd⟩ := (mem_visListMany e _ ds).mp h
        refine List.mem_cons_of_mem _ ?_
        exact (mem_visListMany e c ds).mpr
          ⟨d, hd, visList_closed d e p cs c hxd hcp hc⟩
      · rw [if_neg hcq] at h
        simp at h
  | .File s, e, p, cs, c, hmem, hcp, hc => by
    rw [visList_file] at hmem
    simp at hmem
  | .Link s t, e, p, cs, c, hmem, hcp, hc => by
    rw [visList_link] at hmem
    simp at hmem
end

mutual
theorem nsize_le_of_mem : (t : FileNode) → ∀ x : FileNode,
    x ∈ allNodes t → nsize x ≤ nsize t
  | .Directory p cs, x, hx => by
    rw [allNodes_dir] at hx
    rcases List.mem_cons.mp hx with h | h
    · subst h; exact le_refl _
    · rw [nsize]
      have := nsizeMany_le_of_mem cs x h
      omega
  | .File s, x, hx => by
    rw [allNodes_file] at hx
    simp at hx
    subst hx
    exact le_refl _
  | .Link s t, x, hx => by
    rw [allNodes_link] at hx
    simp at hx
    subst hx
    exact le_refl _

theorem nsizeMany_le_of_mem : (cs : List FileNode) → ∀ x : FileNode,
    x ∈ allNodesMany cs → nsize x ≤ nsizeMany cs
  | c :: cs, x, hx => by
    rw [allNodesMany] at hx
    rw [nsizeMany]
    rcases List.mem_append.mp hx with h | h
    · have := nsize_le_of_mem c x h
      omega
    · have := nsizeMany_le_of_mem cs x h
      omega
end

theorem allNodesMany_split (d : FileNode) (ds : List FileNode) (hd : d ∈ ds) :
    ∃ l₁ l₂, allNodesMany ds = l₁ ++ (allNodes d ++ l₂) := by
  induction ds with
  | nil => simp at hd
  | cons c cs ih =>
    rcases List.mem_cons.mp hd with h | h
    · subst h
      exact ⟨[], allNodesMany cs, by rw [allNodesMany]; simp⟩
    · obtain ⟨l₁, l₂, hl⟩ := ih h
      exact ⟨allNodes c ++ l₁, l₂, by rw [allNodesMany, hl]; simp⟩

theorem uniquePaths_of_mem (d : FileNode) (ds : List FileNode) (hd : d ∈ ds)
    (h : ((allNodesMany ds).map FileNode.path).Nodup) :
    ((allNodes d).map FileNode.path).Nodup := by
  obtain ⟨l₁, l₂, hl⟩ := allNodesMany_split d ds hd
  rw [hl] at h
  simp only [List.map_append] at h
  exact ((List.nodup_append.mp h).2.1.sublist (List.sublist_append_left _ _))

theorem allNodesMany_paths_disjoint (ds : List FileNode)
    (h : ((allNodesMany ds).map FileNode.path).Nodup) :
    ∀ c₁ ∈ ds, ∀ c₂ ∈ ds, c₁ ≠ c₂ → ∀ y ∈ allNodes c₁, ∀ z ∈ allNodes c₂,
    y.path ≠ z.path := by
  induction ds with
  | nil => intro c₁ h₁; simp at h₁
  | cons c cs ih =>
    rw [allNodesMany] at h
    simp only [List.map_append] at h
    obtain ⟨hn₁, hn₂, hdisj⟩ := List.nodup_append.mp h
    intro c₁ h₁ c₂ h₂ hne y hy z hz
    rcases List.mem_cons.mp h₁ with ha | ha <;> rcases List.mem_cons.mp h₂ with hb | hb
    · exact absurd (hb ▸ ha : c₁ = c₂) hne
    · subst ha
      intro heq
      exact hdisj (List.mem_map_of_mem _ hy)
        (heq ▸ List.mem_map_of_mem FileNode.path
          ((mem_allNodesMany z cs).mpr ⟨c₂, hb, hz⟩))
    · subst hb
      intro heq
      exact hdisj (List.mem_map_of_mem _ hz)
        (heq.symm ▸ List.mem_map_of_mem FileNode.path
          ((mem_allNodesMany y cs).mpr ⟨c₁, ha, hy⟩))
    · exact ih hn₂ c₁ ha c₂ hb hne y hy z hz

theorem toListAux_subset (e : List String) (limit i : Nat)
    (nodes : List FileNode) (V : List FileNode)
    (hsub : ∀ n ∈ nodes, n ∈ V)
    (hclosed : ∀ p cs, FileNode.Directory p cs ∈ V → e.contains p = true →
      ∀ c ∈ cs, c ∈ V) :
    ∀ x ∈ toListAux e limit i nodes, x ∈ V := by
  by_cases h : i < limit ∧ i < nodes.length
  · rw [toListAux_step e limit i nodes h]
    by_cases hc : ((nodes.get ⟨i, h.2⟩).has_children &&
        e.contains (nodes.get ⟨i, h.2⟩).path) = true
    · rw [if_pos hc]
      refine toListAux_subset e limit (i + 1) _ V ?_ hclosed
      intro n hn
      rcases List.mem_append.mp hn with hn | hn
      · exact hsub n hn
      · have hmem : nodes.get ⟨i, h.2⟩ ∈ V := hsub _ (List.get_mem _ _ _)
        cases hnext : nodes.get ⟨i, h.2⟩ with
        | Directory p cs =>
          rw [hnext] at hmem hc hn
          simp only [FileNode.children] at hn
          simp only [FileNode.has_children, Bool.true_and] at hc
          simp only [FileNode.path] at hc
          exact hclosed p cs hmem hc n hn
        | File s =>
          rw [hnext] at hc
          simp [FileNode.has_children] at hc
        | Link s t =>
          rw [hnext] at hc
          simp [FileNode.has_children] at hc
    · rw [if_neg hc]
      exact toListAux_subset e limit (i + 1) nodes V hsub hclosed
  · rw [toListAux_stop e limit i nodes h]
    exact hsub
termination_by limit - i
decreasing_by all_goals (simp_wf; omega)

theorem toList_subset_visList (root : FileNode) (e : List String) (limit : Nat) :
    ∀ x ∈ toList root e limit, x ∈ visList e root := by
  refine toListAux_subset e limit 0 [root] (visList e root) ?_ ?_
  · intro n hn
    simp at hn
    subst hn
    exact self_mem_visList e n
  · intro p cs hmem hcp c hc
    exact visList_closed root e p cs c hmem hcp hc

theorem vis_no_collapsed_desc : (root : FileNode) → ∀ (e : List String)
    (p : String) (cs : List FileNode) (x : FileNode),
    UniquePaths root → FileNode.Directory p cs ∈ allNodes root →
    e.contains p = false → x ∈ allNodesMany cs → x ∈ visList e root → False
  | .File s, e, p, cs, x, hU, hD, hNE, hx, hv => by
    rw [allNodes_file] at hD
    simp at hD
  | .Link s t, e, p, cs, x, hU, hD, hNE, hx, hv => by
    rw [allNodes_link] at hD
    simp at hD
  | .Directory q ds, e, p, cs, x, hU, hD, hNE, hx, hv => by
    rw [visList_dir] at hv
    rcases List.mem_cons.mp hv with hv | hv
    · -- x is the root itself: impossible by a size argument
      have h₁ : nsize (FileNode.Directory p cs) ≤ nsize (FileNode.Directory q ds) :=
        nsize_le_of_mem _ _ hD
      have h₂ : nsize x ≤ nsizeMany cs := nsizeMany_le_of_mem cs x hx
      have h₃ : nsize (FileNode.Directory p cs) = 1 + nsizeMany cs := by rw [nsize]
      rw [← hv] at h₁
      omega
    · by_cases hcq : e.contains q = true
      · rw [if_pos hcq] at hv
        obtain ⟨d, hd, hxd⟩ := (mem_visListMany e x ds).mp hv
        rw [allNodes_dir] at hD
        rcases List.mem_cons.mp hD with hD | hD
        · -- the collapsed directory is the root itself: but the root is expanded
          have : q = p := by cases hD; rfl
          subst this
          rw [hcq] at hNE
          exact absurd hNE (by simp)
        · obtain ⟨d₂, hd₂, hDd₂⟩ := (mem_allNodesMany _ ds).mp hD
          have hUtail : ((allNodesMany ds).map FileNode.path).Nodup := by
            rw [UniquePaths, allNodes_dir] at hU
            simp only [List.map_cons] at hU
            exact hU.of_cons
          by_cases hdd : d = d₂
          · subst hdd
            exact vis_no_collapsed_desc d e p cs x
              (uniquePaths_of_mem d ds hd hUtail) hDd₂ hNE hx hxd
          · have hxad : x ∈ allNodes d := visList_subset_allNodes d e x hxd
            have hxad₂ : x ∈ allNodes d₂ := by
              refine mem_allNodes_trans d₂ x (FileNode.Directory p cs) ?_ hDd₂
              rw [allNodes_dir]
              exact List.mem_cons_of_mem _ hx
            exact allNodesMany_paths_disjoint ds hUtail d hd d₂ hd₂ hdd
              x hxad x hxad₂ rfl
      · rw [if_neg hcq] at hv
        simp at hv
termination_by root => sizeOf root
decreasing_by simp_wf; exact Nat.lt_of_lt_of_le (List.sizeOf_lt_of_mem hd) (by omega)

/-- C4: in a tree with distinct name_paths, if a directory's name_path is
absent from the expanded set then the visible-row derivation never includes
any of its descendants, for every expansion state and limit; the collapsed
directory can contribute at most itself as a row. -/
theorem c4_collapse_containment (root : FileNode) (e : List String)
    (limit : Nat) (p : String) (cs : List FileNode)
    (hU : UniquePaths root) (hD : FileNode.Directory p cs ∈ allNodes root)
    (hNE : e.contains p = false) :
    (∀ x ∈ allNodesMany cs, x ∉ toList root e limit) ∧
    (∀ y ∈ toList root e limit, y ∈ allNodes (FileNode.Directory p cs) →
      y = FileNode.Directory p cs) := by
  have hmain : ∀ x ∈ allNodesMany cs, x ∉ toList root e limit := by
    intro x hx hmem
    exact vis_no_collapsed_desc root e p cs x hU hD hNE hx
      (toList_subset_visList root e limit x hmem)
  refine ⟨hmain, ?_⟩
  intro y hy hyD
  rw [allNodes_dir] at hyD
  rcases List.mem_cons.mp hyD with h | h
  · exact h
  · exact absurd hy (hmain y h)

/-- Witness for C4 at the concrete collapsed tree: with directory r/b
absent from the (empty) expanded set, its descendant file r/b/c is not
among the visible rows. -/
theorem c4_collapse_containment_witness :
    FileNode.File "r/b/c" ∉ toList c4root [] 10 := by
  have hall : allNodes c4root =
      [c4root, .Directory "r/b" [.File "r/b/c"], .File "r/b/c"] := by
    simp [c4root, allNodes, allNodesMany]
  have h := c4_collapse_containment c4root [] 10 "r/b" [.File "r/b/c"]
    (by rw [UniquePaths, hall]
        simp only [List.map_cons, List.map_nil, FileNode.path, c4root]
        decide)
    (by rw [hall]; simp)
    rfl
  refine h.1 _ ?_
  simp [allNodesMany, allNodes]

/-! ### String facts for name_path reasoning -/

theorem takeWhile_all {P : Char → Bool} : ∀ (l : List Char),
    (∀ c ∈ l, P c = true) → l.takeWhile P = l
  | [], _ => rfl
  | c :: l, h => by
    rw [List.takeWhile_cons, if_pos (h c (by simp))]
    rw [takeWhile_all l (fun d hd => h d (by simp [hd]))]

theorem takeWhile_append_stop {P : Char → Bool} (l t : List Char) (x : Char)
    (hl : ∀ c ∈ l, P c = true) (hx : P x = false) :
    (l ++ x :: t).takeWhile P = l := by
  induction l with
  | nil => simp [List.takeWhile_cons, hx]
  | cons c l ih =>
    rw [List.cons_append, List.takeWhile_cons, if_pos (hl c (by simp))]
    rw [ih (fun d hd => hl d (by simp [hd]))]

theorem noSep_all {n : String} (h : NoSep n) :
    ∀ c ∈ n.data, (c ≠ '/' : Bool) = true := by
  intro c hc
  simp only [ne_eq, decide_eq_true_eq]
  intro heq
  exact h (heq ▸ hc)

theorem lastSegData_noSep {n : String} (h : NoSep n) :
    lastSegData n.data = n.data := by
  rw [lastSegData, takeWhile_all _ (fun c hc => noSep_all h c (by simpa using hc))]
  simp

theorem sep_data : NAME_SEP.data = ['/'] := rfl

theorem mkPath_none (n : String) : mkPath none n = n := rfl

theorem mkPath_some (p n : String) : mkPath (some p) n = p ++ NAME_SEP ++ n := rfl

theorem path_data_append (p n : String) :
    (p ++ NAME_SEP ++ n).data = p.data ++ '/' :: n.data := by
  simp [sep_data]

theorem lastSegData_append {p n : String} (h : NoSep n) :
    lastSegData (p ++ NAME_SEP ++ n).data = n.data := by
  rw [lastSegData, path_data_append]
  rw [List.reverse_append, List.reverse_cons]
  rw [List.append_assoc, List.singleton_append]
  rw [takeWhile_append_stop n.data.reverse _ '/'
    (fun c hc => noSep_all h c (by simpa using hc)) (by simp)]
  simp

theorem name_of_mkPath {parent : Option String} {n : String} (h : NoSep n)
    (t : FileNode) (hp : t.path = mkPath parent n) : t.name = n := by
  cases parent with
  | none =>
    rw [FileNode.name, hp, mkPath_none, lastSegData_noSep h]
  | some p =>
    rw [FileNode.name, hp, mkPath_some, lastSegData_append h]

theorem sepCount_append {p n : String} (h : NoSep n) :
    (p ++ NAME_SEP ++ n).data.count '/' = p.data.count '/' + 1 := by
  rw [path_data_append, List.count_append, List.count_cons]
  have : n.data.count '/' = 0 := List.count_eq_zero.mpr h
  simp [this]

theorem depth_of_child {p n : String} (c : FileNode) (h : NoSep n)
    (hp : c.path = p ++ NAME_SEP ++ n) (d : FileNode) (hd : d.path = p) :
    c.depth = d.depth + 1 := by
  rw [FileNode.depth, FileNode.depth, hp, hd, sepCount_append h]

theorem subPath_refl (s : String) : SubPath s s := Or.inl rfl

theorem subPath_extend {p n s : String} (h : SubPath (p ++ NAME_SEP ++ n) s) :
    SubPath p s := by
  rcases h with h | ⟨r, hr⟩
  · exact Or.inr ⟨n, h⟩
  · refine Or.inr ⟨n ++ NAME_SEP ++ r, ?_⟩
    rw [hr]
    simp [String.append_assoc]

theorem subPath_data_length {p n s : String}
    (h : SubPath (p ++ NAME_SEP ++ n) s) :
    p.data.length + 1 ≤ s.data.length := by
  rcases h with h | ⟨r, hr⟩
  · rw [h, path_data_append]
    simp
  · rw [hr]
    rw [show ((p ++ NAME_SEP ++ n) ++ NAME_SEP ++ r).data =
      (p.data ++ '/' :: n.data) ++ '/' :: r.data from by
        rw [← path_data_append, ← path_data_append]]
    simp

theorem subPath_ne_base {p n s : String} (h : SubPath (p ++ NAME_SEP ++ n) s) :
    s ≠ p := by
  intro heq
  have hl := subPath_data_length h
  rw [heq] at hl
  omega

theorem firstSegData_of_noSep {n : String} (h : NoSep n) :
    firstSegData n.data = n.data :=
  takeWhile_all _ (fun c hc => noSep_all h c (by simpa using hc))

theorem firstSegData_append {n : String} (t : List Char) (h : NoSep n) :
    firstSegData (n.data ++ '/' :: t) = n.data :=
  takeWhile_append_stop n.data t '/'
    (fun c hc => noSep_all h c (by simpa using hc)) (by simp)

theorem subPath_tail_data {p n s : String} (h : SubPath (p ++ NAME_SEP ++ n) s)
    (hn : NoSep n) :
    ∃ t, s.data = p.data ++ '/' :: (n.data ++ t) ∧
      firstSegData (n.data ++ t) = n.data := by
  rcases h with h | ⟨r, hr⟩
  · refine ⟨[], ?_, ?_⟩
    · rw [h, path_data_append]; simp
    · simpa using firstSegData_of_noSep hn
  · refine ⟨'/' :: r.data, ?_, ?_⟩
    · rw [hr]
      simp [path_data_append, sep_data]
    · exact firstSegData_append _ hn

theorem subPath_disjoint {p n₁ n₂ s₁ s₂ : String}
    (h₁ : SubPath (p ++ NAME_SEP ++ n₁) s₁)
    (h₂ : SubPath (p ++ NAME_SEP ++ n₂) s₂)
    (hn₁ : NoSep n₁) (hn₂ : NoSep n₂) (hne : n₁ ≠ n₂) : s₁ ≠ s₂ := by
  intro heq
  obtain ⟨t₁, hd₁, hf₁⟩ := subPath_tail_data h₁ hn₁
  obtain ⟨t₂, hd₂, hf₂⟩ := subPath_tail_data h₂ hn₂
  have hdata : p.data ++ '/' :: (n₁.data ++ t₁) = p.data ++ '/' :: (n₂.data ++ t₂) := by
    rw [← hd₁, ← hd₂, heq]
  have hc := List.append_cancel_left hdata
  injection hc with hh ht
  have hn : n₁.data = n₂.data := by
    rw [← hf₁, ← hf₂, ht]
  exact hne (by rw [← string_mk_data n₁, ← string_mk_data n₂, hn])

/-! ### Builder step equations -/

theorem nr_err_name (e : FsEntry) (parent : Option String)
    (h : entryName e = none) :
    FileNode.new_recursive e parent = .error () := by
  cases e with
  | file nm =>
    simp [entryName] at h
    subst h
    rw [FileNode.new_recursive.eq_def]
    rfl
  | dir nm es =>
    simp [entryName] at h
    subst h
    rw [FileNode.new_recursive.eq_def]
    cases es <;> rfl
  | link nm t =>
    simp [entryName] at h
    subst h
    rw [FileNode.new_recursive.eq_def]
    cases t <;> rfl
  | other nm =>
    simp [entryName] at h
    subst h
    rw [FileNode.new_recursive.eq_def]
    rfl

theorem nr_file (n : String) (parent : Option String) :
    FileNode.new_recursive (.file (some n)) parent =
      .ok (.File (mkPath parent n)) := by
  cases parent <;> (rw [FileNode.new_recursive.eq_def]; simp [entryName, mkPath])

theorem nr_link (n t : String) (parent : Option String) :
    FileNode.new_recursive (.link (some n) (some t)) parent =
      .ok (.Link (mkPath parent n) t) := by
  cases parent <;> (rw [FileNode.new_recursive.eq_def]; simp [entryName, mkPath])

theorem nr_link_err (n : String) (parent : Option String) :
    FileNode.new_recursive (.link (some n) none) parent = .error () := by
  cases parent <;> (rw [FileNode.new_recursive.eq_def]; simp [entryName])

theorem nr_other (n : String) (parent : Option String) :
    FileNode.new_recursive (.other (some n)) parent = .error () := by
  cases parent <;> (rw [FileNode.new_recursive.eq_def]; simp [entryName])

theorem nr_dir_err (n : String) (parent : Option String) :
    FileNode.new_recursive (.dir (some n) none) parent = .error () := by
  cases parent <;> (rw [FileNode.new_recursive.eq_def]; simp [entryName])

theorem nr_dir (n : String) (es : List FsEntry) (parent : Option String) :
    FileNode.new_recursive (.dir (some n) (some es)) parent =
      .ok (.Directory (mkPath parent n)
        (sortNodes (buildList es (mkPath parent n)))) := by
  cases parent <;> (rw [FileNode.new_recursive.eq_def]; simp [entryName, mkPath])

theorem buildList_nil (pp : String) : buildList [] pp = [] := by
  rw [buildList.eq_def]

theorem buildList_cons_ok {e : FsEntry} {pp : String} {c : FileNode}
    (es : List FsEntry) (h : FileNode.new_recursive e (some pp) = .ok c) :
    buildList (e :: es) pp = c :: buildList es pp := by
  rw [buildList.eq_def]
  show (match FileNode.new_recursive e (some pp) with
        | Except.ok c => c :: buildList es pp
        | Except.error _ => buildList es pp) = c :: buildList es pp
  rw [h]

theorem buildList_cons_err {e : FsEntry} {pp : String} {x : Unit}
    (es : List FsEntry) (h : FileNode.new_recursive e (some pp) = .error x) :
    buildList (e :: es) pp = buildList es pp := by
  rw [buildList.eq_def]
  show (match FileNode.new_recursive e (some pp) with
        | Except.ok c => c :: buildList es pp
        | Except.error _ => buildList es pp) = buildList es pp
  rw [h]

theorem allNodesMany_perm {cs ds : List FileNode} (h : List.Perm cs ds) :
    List.Perm (allNodesMany cs) (allNodesMany ds) := by
  induction h with
  | nil => exact List.Perm.refl _
  | cons x h ih =>
    rw [allNodesMany, allNodesMany]
    exact ih.append_left (allNodes x)
  | swap x y l =>
    rw [allNodesMany, allNodesMany, allNodesMany, allNodesMany]
    rw [← List.append_assoc, ← List.append_assoc]
    exact List.perm_append_comm.append_right _
  | trans h₁ h₂ ih₁ ih₂ => exact ih₁.trans ih₂

theorem filterMap_cons_nodup {e : FsEntry} {es : List FsEntry}
    (h : ((e :: es).filterMap entryName).Nodup) :
    (es.filterMap entryName).Nodup := by
  rw [List.filterMap_cons] at h
  cases he : entryName e with
  | none => rw [he] at h; exact h
  | some n => rw [he] at h; exact h.of_cons

theorem mem_filterMap_cons {e : FsEntry} {es : List FsEntry} {n : String}
    (h : n ∈ es.filterMap entryName) :
    n ∈ (e :: es).filterMap entryName := by
  rw [List.filterMap_cons]
  cases he : entryName e with
  | none => exact h
  | some m => exact List.mem_cons_of_mem _ h

theorem fsOk_file (nm : Option String) : FsOk (.file nm) = OkName nm := by
  rw [FsOk.eq_def]

theorem fsOk_dir_some (nm : Option String) (es : List FsEntry) :
    FsOk (.dir nm (some es)) =
      (OkName nm ∧ FsOkList es ∧ (es.filterMap entryName).Nodup) := by
  rw [FsOk.eq_def]

theorem fsOk_link (nm : Option String) (t : Option String) :
    FsOk (.link nm t) = OkName nm := by
  rw [FsOk.eq_def]

theorem fsOkList_nil : FsOkList [] = True := by
  rw [FsOkList.eq_def]

theorem fsOkList_cons (e : FsEntry) (es : List FsEntry) :
    FsOkList (e :: es) = (FsOk e ∧ FsOkList es) := by
  rw [FsOkList.eq_def]

/-! ### The build invariant -/

mutual
theorem build_inv : (fs : FsEntry) → (parent : Option String) →
    (node : FileNode) → FsOk fs →
    FileNode.new_recursive fs parent = .ok node →
    entryName fs = some node.name ∧ NoSep node.name ∧
    node.path = mkPath parent node.name ∧
    ChildOk node ∧ SortedAll node ∧ SubPathAll node ∧ UniquePaths node
  | .file none, parent, node, hOk, hb => by
    rw [nr_err_name (.file none) parent rfl] at hb
    exact absurd hb (by simp)
  | .file (some n), parent, node, hOk, hb => by
    rw [nr_file] at hb
    obtain rfl : FileNode.File (mkPath parent n) = node := by injection hb
    have hsep : NoSep n := by
      rw [fsOk_file] at hOk
      exact hOk
    have hpath : (FileNode.File (mkPath parent n)).path = mkPath parent n := rfl
    have hname : (FileNode.File (mkPath parent n)).name = n :=
      name_of_mkPath hsep _ hpath
    refine ⟨by simp [entryName, hname], by rw [hname]; exact hsep,
      by rw [hname]; exact hpath, ?_, ?_, ?_, ?_⟩
    · intro q ds hq
      rw [allNodes_file] at hq
      simp at hq
    · intro q ds hq
      rw [allNodes_file] at hq
      simp at hq
    · intro x hx
      rw [allNodes_file] at hx
      simp at hx
      subst hx
      exact subPath_refl _
    · rw [UniquePaths, allNodes_file]
      simp
  | .link none tg, parent, node, hOk, hb => by
    rw [nr_err_name (.link none tg) parent rfl] at hb
    exact absurd hb (by simp)
  | .link (some n) none, parent, node, hOk, hb => by
    rw [nr_link_err] at hb
    exact absurd hb (by simp)
  | .link (some n) (some t), parent, node, hOk, hb => by
    rw [nr_link] at hb
    obtain rfl : FileNode.Link (mkPath parent n) t = node := by injection hb
    have hsep : NoSep n := by
      rw [fsOk_link] at hOk
      exact hOk
    have hpath : (FileNode.Link (mkPath parent n) t).path = mkPath parent n := rfl
    have hname : (FileNode.Link (mkPath parent n) t).name = n :=
      name_of_mkPath hsep _ hpath
    refine ⟨by simp [entryName, hname], by rw [hname]; exact hsep,
      by rw [hname]; exact hpath, ?_, ?_, ?_, ?_⟩
    · intro q ds hq
      rw [allNodes_link] at hq
      simp at hq
    · intro q ds hq
      rw [allNodes_link] at hq
      simp at hq
    · intro x hx
      rw [allNodes_link] at hx
      simp at hx
      subst hx
      exact subPath_refl _
    · rw [UniquePaths, allNodes_link]
      simp
  | .other none, parent, node, hOk, hb => by
    rw [nr_err_name (.other none) parent rfl] at hb
    exact absurd hb (by simp)
  | .other (some n), parent, node, hOk, hb => by
    rw [nr_other] at hb
    exact absurd hb (by simp)
  | .dir none oes, parent, node, hOk, hb => by
    rw [nr_err_name (.dir none oes) parent rfl] at hb
    exact absurd hb (by simp)
  | .dir (some n) none, parent, node, hOk, hb => by
    rw [nr_dir_err] at hb
    exact absurd hb (by simp)
  | .dir (some n) (some es), parent, node, hOk, hb => by
    rw [nr_dir] at hb
    obtain rfl : FileNode.Directory (mkPath parent n)
        (sortNodes (buildList es (mkPath parent n))) = node := by injection hb
    rw [fsOk_dir_some] at hOk
    obtain ⟨hsep, hOkL, hnd⟩ := hOk
    obtain ⟨hpkg, hnodup⟩ := build_list_inv es (mkPath parent n) hOkL hnd
    have hpath : (FileNode.Directory (mkPath parent n)
        (sortNodes (buildList es (mkPath parent n)))).path = mkPath parent n := rfl
    have hname : (FileNode.Directory (mkPath parent n)
        (sortNodes (buildList es (mkPath parent n)))).name = n :=
      name_of_mkPath hsep _ hpath
    have hmemiff : ∀ c : FileNode,
        c ∈ sortNodes (buildList es (mkPath parent n)) ↔
        c ∈ buildList es (mkPath parent n) := fun c => List.mem_mergeSort
    refine ⟨by simp [entryName, hname], by rw [hname]; exact hsep,
      by rw [hname]; exact hpath, ?_, ?_, ?_, ?_⟩
    · -- every directory in the subtree extends its path to its children
      intro q ds hq c hc
      rw [allNodes_dir] at hq
      rcases List.mem_cons.mp hq with hq | hq
      · injection hq with hq₁ hq₂
        subst hq₁
        subst hq₂
        have h := hpkg c ((hmemiff c).mp hc)
        refine ⟨h.2.1, h.1, ?_⟩
        exact depth_of_child c h.1 h.2.1 _ rfl
      · obtain ⟨c₂, hc₂, hq₂⟩ := (mem_allNodesMany _ _).mp hq
        exact (hpkg c₂ ((hmemiff c₂).mp hc₂)).2.2.1 q ds hq₂ c hc
    · -- every directory in the subtree has sorted children
      intro q ds hq
      rw [allNodes_dir] at hq
      rcases List.mem_cons.mp hq with hq | hq
      · injection hq with hq₁ hq₂
        subst hq₂
        exact sortNodes_sorted _
      · obtain ⟨c₂, hc₂, hq₂⟩ := (mem_allNodesMany _ _).mp hq
        exact (hpkg c₂ ((hmemiff c₂).mp hc₂)).2.2.2.1 q ds hq₂
    · -- every path of the subtree lies under the directory's path
      intro x hx
      rw [allNodes_dir] at hx
      rcases List.mem_cons.mp hx with hx | hx
      · subst hx
        exact subPath_refl _
      · obtain ⟨c₂, hc₂, hx₂⟩ := (mem_allNodesMany _ _).mp hx
        have h := hpkg c₂ ((hmemiff c₂).mp hc₂)
        have hsp := h.2.2.2.2.1 x hx₂
        rw [h.2.1] at hsp
        exact subPath_extend hsp
    · -- paths of the subtree are distinct
      rw [UniquePaths, allNodes_dir]
      simp only [List.map_cons]
      rw [List.nodup_cons]
      constructor
      · intro hmem
        obtain ⟨x, hx, hxp⟩ := List.mem_map.mp hmem
        obtain ⟨c₂, hc₂, hx₂⟩ := (mem_allNodesMany _ _).mp hx
        have h := hpkg c₂ ((hmemiff c₂).mp hc₂)
        have hsp := h.2.2.2.2.1 x hx₂
        rw [h.2.1] at hsp
        exact subPath_ne_base hsp hxp
      · have hperm : List.Perm
            (allNodesMany (sortNodes (buildList es (mkPath parent n))))
            (allNodesMany (buildList es (mkPath parent n))) :=
          allNodesMany_perm (sortNodes_perm _)
        exact ((hperm.map FileNode.path).nodup_iff).mpr hnodup
termination_by fs parent node hOk hb => sizeOf fs
decreasing_by all_goals (simp_wf; omega)

theorem build_list_inv : (es : List FsEntry) → (pp : String) → FsOkList es →
    (es.filterMap entryName).Nodup →
    (∀ c ∈ buildList es pp, NoSep c.name ∧ c.path = pp ++ NAME_SEP ++ c.name ∧
       ChildOk c ∧ SortedAll c ∧ SubPathAll c ∧
       c.name ∈ es.filterMap entryName) ∧
    ((allNodesMany (buildList es pp)).map FileNode.path).Nodup
  | [], pp, _, _ => by
    rw [buildList_nil]
    refine ⟨by simp, ?_⟩
    rw [allNodesMany]
    simp
  | e :: es, pp, hOkL, hnd => by
    rw [fsOkList_cons] at hOkL
    cases hbe : FileNode.new_recursive e (some pp) with
    | error err =>
      rw [buildList_cons_err es hbe]
      obtain ⟨IH₁, IH₂⟩ := build_list_inv es pp hOkL.2 (filterMap_cons_nodup hnd)
      refine ⟨fun c hc => ?_, IH₂⟩
      have h := IH₁ c hc
      exact ⟨h.1, h.2.1, h.2.2.1, h.2.2.2.1, h.2.2.2.2.1,
        mem_filterMap_cons h.2.2.2.2.2⟩
    | ok c =>
      rw [buildList_cons_ok es hbe]
      obtain ⟨hen, hnsep, hcpath, hChild, hSorted, hSub, hUniq⟩ :=
        build_inv e (some pp) c hOkL.1 hbe
      rw [mkPath_some] at hcpath
      have hfm : (e :: es).filterMap entryName =
          c.name :: es.filterMap entryName := by
        rw [List.filterMap_cons, hen]
      rw [hfm] at hnd
      have hcnotin : c.name ∉ es.filterMap entryName := (List.nodup_cons.mp hnd).1
      obtain ⟨IH₁, IH₂⟩ := build_list_inv es pp hOkL.2 (List.nodup_cons.mp hnd).2
      constructor
      · intro d hd
        rcases List.mem_cons.mp hd with hd | hd
        · subst hd
          exact ⟨hnsep, hcpath, hChild, hSorted, hSub, by rw [hfm]; simp⟩
        · have h := IH₁ d hd
          exact ⟨h.1, h.2.1, h.2.2.1, h.2.2.2.1, h.2.2.2.2.1,
            by rw [hfm]; exact List.mem_cons_of_mem _ h.2.2.2.2.2⟩
      · rw [allNodesMany, List.map_append, List.nodup_append]
        refine ⟨hUniq, IH₂, ?_⟩
        intro a ha₁ ha₂
        obtain ⟨y, hy, rfl⟩ := List.mem_map.mp ha₁
        obtain ⟨z, hz, hzp⟩ := List.mem_map.mp ha₂
        obtain ⟨c₂, hc₂, hz₂⟩ := (mem_allNodesMany _ _).mp hz
        have h₂ := IH₁ c₂ hc₂
        have hsy : SubPath (pp ++ NAME_SEP ++ c.name) y.path := by
          have h := hSub y hy
          rw [hcpath] at h
          exact h
        have hsz : SubPath (pp ++ NAME_SEP ++ c₂.name) z.path := by
          have h := h₂.2.2.2.2.1 z hz₂
          rw [h₂.2.1] at h
          exact h
        have hne : c.name ≠ c₂.name := fun heq => hcnotin (heq ▸ h₂.2.2.2.2.2)
        exact subPath_disjoint hsy hsz hnsep h₂.1 hne hzp.symm
termination_by es pp hOkL hnd => sizeOf es
decreasing_by all_goals (simp_wf; try omega)
end

/-! ### C7 and C6 -/

theorem pairwise_path_ne_of_nodup (cs : List FileNode)
    (h : ((allNodesMany cs).map FileNode.path).Nodup) :
    cs.Pairwise (fun a b => a.path ≠ b.path) := by
  induction cs with
  | nil => exact List.Pairwise.nil
  | cons c cs ih =>
    rw [allNodesMany, List.map_append, List.nodup_append] at h
    obtain ⟨h₁, h₂, hdisj⟩ := h
    refine List.Pairwise.cons ?_ (ih h₂)
    intro b hb heq
    refine hdisj (List.mem_map_of_mem _ (self_mem_allNodes c)) ?_
    rw [heq]
    exact List.mem_map_of_mem _ ((mem_allNodesMany b cs).mpr
      ⟨b, hb, self_mem_allNodes b⟩)

theorem uniquePaths_sub : (t : FileNode) → ∀ x, x ∈ allNodes t →
    UniquePaths t → UniquePaths x
  | .Directory q ds, x, hx, hU => by
    rw [allNodes_dir] at hx
    rcases List.mem_cons.mp hx with hx | hx
    · subst hx
      exact hU
    · obtain ⟨d, hd, hxd⟩ := (mem_allNodesMany _ _).mp hx
      have hUt : ((allNodesMany ds).map FileNode.path).Nodup := by
        rw [UniquePaths, allNodes_dir] at hU
        simp only [List.map_cons] at hU
        exact hU.of_cons
      exact uniquePaths_sub d x hxd (uniquePaths_of_mem d ds hd hUt)
  | .File s, x, hx, hU => by
    rw [allNodes_file] at hx
    simp at hx
    subst hx
    exact hU
  | .Link s t, x, hx, hU => by
    rw [allNodes_link] at hx
    simp at hx
    subst hx
    exact hU
termination_by t => sizeOf t
decreasing_by
  simp_wf
  exact Nat.lt_of_lt_of_le (List.sizeOf_lt_of_mem hd) (by omega)

theorem cmpNode_bridge : ∀ a b : FileNode,
    cmpNode a b = (cmpo (tagNum a) (tagNum b)).then (fieldsCmp a b)
  | .Directory s v, .Directory s₂ v₂ => by
    simp +decide [cmpNode, fieldsCmp, tagNum, cmpo, Ordering.then]
  | .Directory s v, .File s₂ => by
    simp +decide [cmpNode, fieldsCmp, tagNum, cmpo, Ordering.then]
  | .Directory s v, .Link s₂ t₂ => by
    simp +decide [cmpNode, fieldsCmp, tagNum, cmpo, Ordering.then]
  | .File s, .Directory s₂ v₂ => by
    simp +decide [cmpNode, fieldsCmp, tagNum, cmpo, Ordering.then]
  | .File s, .File s₂ => by
    simp +decide [cmpNode, fieldsCmp, tagNum, cmpo, Ordering.then]
  | .File s, .Link s₂ t₂ => by
    simp +decide [cmpNode, fieldsCmp, tagNum, cmpo, Ordering.then]
  | .Link s t, .Directory s₂ v₂ => by
    simp +decide [cmpNode, fieldsCmp, tagNum, cmpo, Ordering.then]
  | .Link s t, .File s₂ => by
    simp +decide [cmpNode, fieldsCmp, tagNum, cmpo, Ordering.then]
  | .Link s t, .Link s₂ t₂ => by
    simp +decide [cmpNode, fieldsCmp, tagNum, cmpo, Ordering.then]

theorem nodeLe_tagPathLt (a b : FileNode) (h : nodeLe a b = true)
    (hne : a.path ≠ b.path) : tagPathLt a b := by
  have hng : cmpNode a b ≠ .gt := by
    intro hq
    rw [nodeLe, hq] at h
    simp at h
  rw [cmpNode_bridge, then_ne_gt] at hng
  rcases hng with h₁ | ⟨h₁, h₂⟩
  · exact Or.inl ((cmpo_lt_iff _ _).mp h₁)
  · have htag : tagNum a = tagNum b := (cmpo_eq_iff _ _).mp h₁
    refine Or.inr ⟨htag, ?_⟩
    cases a with
    | Directory s v =>
      cases b with
      | Directory s₂ v₂ =>
        simp only [fieldsCmp] at h₂
        rw [then_ne_gt] at h₂
        rcases h₂ with h₃ | ⟨h₃, _⟩
        · simpa [FileNode.path] using (cmpo_lt_iff _ _).mp h₃
        · exact absurd (by simp [FileNode.path, (cmpo_eq_iff s s₂).mp h₃]) hne
      | File s₂ => simp [tagNum] at htag
      | Link s₂ t₂ => simp [tagNum] at htag
    | File s =>
      cases b with
      | Directory s₂ v₂ => simp [tagNum] at htag
      | File s₂ =>
        simp only [fieldsCmp] at h₂
        rcases lt_trichotomy s s₂ with h₃ | h₃ | h₃
        · simpa [FileNode.path] using h₃
        · exact absurd (by simp [FileNode.path, h₃]) hne
        · exact absurd ((cmpo_gt_iff s s₂).mpr h₃) h₂
      | Link s₂ t₂ => simp [tagNum] at htag
    | Link s t =>
      cases b with
      | Directory s₂ v₂ => simp [tagNum] at htag
      | File s₂ => simp [tagNum] at htag
      | Link s₂ t₂ =>
        simp only [fieldsCmp] at h₂
        rw [then_ne_gt] at h₂
        rcases h₂ with h₃ | ⟨h₃, _⟩
        · simpa [FileNode.path] using (cmpo_lt_iff _ _).mp h₃
        · exact absurd (by simp [FileNode.path, (cmpo_eq_iff s s₂).mp h₃]) hne

theorem build_fsPerm {a b : FsEntry} (h : FsPerm a b) :
    ∀ parent : Option String,
    FileNode.new_recursive a parent = FileNode.new_recursive b parent := by
  refine @FsPerm.rec
    (fun a b _ => ∀ parent : Option String,
      FileNode.new_recursive a parent = FileNode.new_recursive b parent)
    (fun as bs _ => ∀ pp : String,
      List.Perm (buildList as pp) (buildList bs pp))
    ?_ ?_ ?_ ?_ ?_ ?_ ?_ ?_ ?_ a b h
  · intro n parent
    rfl
  · intro n parent
    rfl
  · intro n es es₂ hlist ih parent
    cases n with
    | none =>
      rw [nr_err_name (.dir none (some es)) parent rfl,
        nr_err_name (.dir none (some es₂)) parent rfl]
    | some m =>
      rw [nr_dir, nr_dir]
      rw [sortNodes_congr _ _ (ih (mkPath parent m))]
  · intro n t parent
    rfl
  · intro n parent
    rfl
  · intro pp
    exact List.Perm.refl _
  · intro a₁ b₁ as bs hab hrest ihab ihrest pp
    have he := ihab (some pp)
    cases hres : FileNode.new_recursive a₁ (some pp) with
    | ok c =>
      rw [buildList_cons_ok as hres,
        buildList_cons_ok bs (show FileNode.new_recursive b₁ (some pp) = .ok c
          from by rw [← he]; exact hres)]
      exact (ihrest pp).cons c
    | error x =>
      rw [buildList_cons_err as hres,
        buildList_cons_err bs (show FileNode.new_recursive b₁ (some pp) = .error x
          from by rw [← he]; exact hres)]
      exact ihrest pp
  · intro a₁ a₂ b₁ b₂ l ha hb iha ihb pp
    have hea := iha (some pp)
    have heb := ihb (some pp)
    cases hra : FileNode.new_recursive a₁ (some pp) with
    | ok ca =>
      cases hrb : FileNode.new_recursive b₁ (some pp) with
      | ok cb =>
        rw [buildList_cons_ok _ hra, buildList_cons_ok _ hrb,
          buildList_cons_ok _ (show FileNode.new_recursive b₂ (some pp) = .ok cb
            from by rw [← heb]; exact hrb),
          buildList_cons_ok _ (show FileNode.new_recursive a₂ (some pp) = .ok ca
            from by rw [← hea]; exact hra)]
        exact List.Perm.swap cb ca _
      | error xb =>
        rw [buildList_cons_ok _ hra, buildList_cons_err _ hrb,
          buildList_cons_err _ (show FileNode.new_recursive b₂ (some pp) = .error xb
            from by rw [← heb]; exact hrb),
          buildList_cons_ok _ (show FileNode.new_recursive a₂ (some pp) = .ok ca
            from by rw [← hea]; exact hra)]
    | error xa =>
      cases hrb : FileNode.new_recursive b₁ (some pp) with
      | ok cb =>
        rw [buildList_cons_err _ hra, buildList_cons_ok _ hrb,
          buildList_cons_ok _ (show FileNode.new_recursive b₂ (some pp) = .ok cb
            from by rw [← heb]; exact hrb),
          buildList_cons_err _ (show FileNode.new_recursive a₂ (some pp) = .error xa
            from by rw [← hea]; exact hra)]
      | error xb =>
        rw [buildList_cons_err _ hra, buildList_cons_err _ hrb,
          buildList_cons_err _ (show FileNode.new_recursive b₂ (some pp) = .error xb
            from by rw [← heb]; exact hrb),
          buildList_cons_err _ (show FileNode.new_recursive a₂ (some pp) = .error xa
            from by rw [← hea]; exact hra)]
  · intro as bs cs h₁ h₂ ih₁ ih₂ pp
    exact (ih₁ pp).trans (ih₂ pp)

/-- C7: in any tree the builder constructs from a well-formed snapshot, the
root's name_path is its own base name (one segment, depth 1), every child's
name_path is its parent's name_path, the separator, and the child's base
name (so its segment count, the code's depth, is the parent's plus one),
and all name_paths in the tree are distinct. -/
theorem c7_path_identity (fs : FsEntry) (root : FileNode) (hOk : FsOk fs)
    (hb : FileNode.new_recursive fs none = .ok root) :
    root.path = root.name ∧ root.depth = 1 ∧
    (∀ p cs, FileNode.Directory p cs ∈ allNodes root → ∀ c ∈ cs,
      c.path = p ++ NAME_SEP ++ c.name ∧
      c.depth = (FileNode.Directory p cs).depth + 1) ∧
    UniquePaths root := by
  obtain ⟨hen, hnsep, hpath, hChild, hSorted, hSub, hUniq⟩ :=
    build_inv fs none root hOk hb
  rw [mkPath_none] at hpath
  refine ⟨hpath, ?_, ?_, hUniq⟩
  · rw [FileNode.depth, hpath]
    have h0 : root.name.data.count '/' = 0 := List.count_eq_zero.mpr hnsep
    omega
  · intro p cs hmem c hc
    have h := hChild p cs hmem c hc
    exact ⟨h.1, h.2.2⟩

theorem c1fs_ok : FsOk c1fs := by
  rw [c1fs, fsOk_dir_some]
  refine ⟨?_, ?_, ?_⟩
  · simp only [OkName, NoSep]
    decide
  · rw [fsOkList_cons, fsOk_file, fsOkList_cons, fsOk_dir_some, fsOkList_nil]
    refine ⟨?_, ⟨?_, ?_, ?_⟩, trivial⟩
    · simp only [OkName, NoSep]
      decide
    · simp only [OkName, NoSep]
      decide
    · rw [fsOkList_cons, fsOk_file, fsOkList_nil]
      refine ⟨?_, trivial⟩
      simp only [OkName, NoSep]
      decide
    · simp only [List.filterMap_cons, List.filterMap_nil, entryName]
      decide
  · simp only [List.filterMap_cons, List.filterMap_nil, entryName]
    decide

/-- Witness for C7 at the concrete scenario tree. -/
theorem c7_path_identity_witness :
    c1root.path = c1root.name ∧ UniquePaths c1root :=
  have h := c7_path_identity c1fs c1root c1fs_ok c1_build
  ⟨h.1, h.2.2.2⟩

/-- C6: in any tree the builder constructs from a well-formed snapshot,
every directory's child vector is sorted by the derived Ord (and, children
having distinct paths, strictly by variant tag first and then name_path
lexicographically); and building from any snapshot listing the same content
in any enumeration order yields the identical tree. -/
theorem c6_children_sorted_deterministic (fs : FsEntry) (root : FileNode)
    (hOk : FsOk fs) (hb : FileNode.new_recursive fs none = .ok root) :
    (∀ p cs, FileNode.Directory p cs ∈ allNodes root →
      cs.Pairwise (fun a b => nodeLe a b = true) ∧ cs.Pairwise tagPathLt) ∧
    (∀ fs₂, FsPerm fs fs₂ → FileNode.new_recursive fs₂ none = .ok root) := by
  obtain ⟨hen, hnsep, hpath, hChild, hSorted, hSub, hUniq⟩ :=
    build_inv fs none root hOk hb
  constructor
  · intro p cs hmem
    have hpw := hSorted p cs hmem
    have hU : UniquePaths (FileNode.Directory p cs) :=
      uniquePaths_sub root _ hmem hUniq
    have hUt : ((allNodesMany cs).map FileNode.path).Nodup := by
      rw [UniquePaths, allNodes_dir] at hU
      simp only [List.map_cons] at hU
      exact hU.of_cons
    have hpne := pairwise_path_ne_of_nodup cs hUt
    refine ⟨hpw, ?_⟩
    have hand := hpw.and hpne
    exact hand.imp (fun hab => nodeLe_tagPathLt _ _ hab.1 hab.2)
  · intro fs₂ hp
    rw [← build_fsPerm hp none]
    exact hb

/-- Witness for C6 at the concrete scenario tree: the root's children are
sorted with the directory root/b strictly before the file root/a.txt, and
building from the snapshot with the two entries enumerated in the other
order yields the identical tree. -/
theorem c6_witness :
    [c1b, c1a].Pairwise tagPathLt ∧
    FileNode.new_recursive
      (.dir (some "root") (some
        [.dir (some "b") (some [.file (some "c.txt")]),
         .file (some "a.txt")])) none = .ok c1root := by
  have h := c6_children_sorted_deterministic c1fs c1root c1fs_ok c1_build
  constructor
  · have hmem : FileNode.Directory "root" [c1b, c1a] ∈ allNodes c1root := by
      rw [show c1root = FileNode.Directory "root" [c1b, c1a] from rfl]
      exact self_mem_allNodes _
    exact (h.1 "root" [c1b, c1a] hmem).2
  · refine h.2 _ ?_
    rw [c1fs]
    exact FsPerm.dir (some "root")
      (FsPermList.swap [] (FsPerm.file (some "a.txt"))
        (FsPerm.dir (some "b") (FsPermList.cons (FsPerm.file (some "c.txt"))
          FsPermList.nil)))

/-- C8: a canonicalization failure, or a root that cannot be classified
(including a nameless or non-text root), makes tree construction return the
error with no partial FileTree; a failing child entry is silently omitted
from its parent's children while the parent itself still builds. -/
theorem c8_error_handling (file_root : String) (parent : Option String) :
    FileTree.new file_root (.error ()) = .error () ∧
    (∀ fs : FsEntry, FileNode.new_recursive fs none = .error () →
      FileTree.new file_root (.ok fs) = .error ()) ∧
    (∀ nm : Option String,
      FileNode.new_recursive (.other nm) parent = .error ()) ∧
    (∀ e : FsEntry, entryName e = none →
      FileNode.new_recursive e parent = .error ()) ∧
    (∀ (es₁ es₂ : List FsEntry) (bad : FsEntry) (pp : String),
      FileNode.new_recursive bad (some pp) = .error () →
      buildList (es₁ ++ bad :: es₂) pp = buildList (es₁ ++ es₂) pp) ∧
    (∀ (n : String) (es : List FsEntry),
      FileNode.new_recursive (.dir (some n) (some es)) parent =
        .ok (.Directory (mkPath parent n)
          (sortNodes (buildList es (mkPath parent n))))) := by
  refine ⟨?_, ?_, ?_, ?_, ?_, fun n es => nr_dir n es parent⟩
  · rw [FileTree.new, FileNode.new_from_path]
  · intro fs h
    rw [FileTree.new, FileNode.new_from_path, h]
  · intro nm
    cases nm with
    | none => exact nr_err_name (.other none) parent rfl
    | some n => exact nr_other n parent
  · intro e h
    exact nr_err_name e parent h
  · intro es₁ es₂ bad pp hbad
    induction es₁ with
    | nil =>
      simp only [List.nil_append]
      exact buildList_cons_err es₂ hbad
    | cons e es₁ ih =>
      simp only [List.cons_append]
      cases hres : FileNode.new_recursive e (some pp) with
      | ok c =>
        rw [buildList_cons_ok _ hres, buildList_cons_ok _ hres, ih]
      | error x =>
        rw [buildList_cons_err _ hres, buildList_cons_err _ hres, ih]

/-- Witness for C8: with the unclassifiable entry named bad among the
children, the built child list is the same as without it, and a failed
canonicalization yields the error at FileTree.new. -/
theorem c8_error_handling_witness :
    buildList ([FsEntry.file (some "a.txt")] ++
      FsEntry.other (some "bad") :: []) "root" =
      buildList ([FsEntry.file (some "a.txt")] ++ []) "root" ∧
    FileTree.new "x" (.error ()) = .error () := by
  have h := c8_error_handling "x" none
  exact ⟨h.2.2.2.2.1 [FsEntry.file (some "a.txt")] [] (FsEntry.other (some "bad"))
    "root" (nr_other "bad" (some "root")), h.1⟩
